import Mathlib

/-!
Verification of the Akamai Fast Purge client (Go) against its
natural-language specification.

The development shallowly embeds the program's core: the text-mode chunker
(`InvalidateByURLs` together with `createJSON`/`createRequestBody`), the
JSON-mode dispatcher (`InvalidateByBodies`), the retry loop
(`invalidationRequest` with `randomTime`), and the configuration validator
(`Validation`).  Byte strings are modelled as `List Nat` (one entry per
byte).  External collaborators (the `url.Parse` check, the HTTP transport,
the random source) are modelled as explicit parameters or oracles, exactly
as far as the embedded code observes them.
-/

namespace FastPurge

/-- `maxBodySize` from the source: the hard 50000-byte request body cap. -/
def maxBodySize : Nat := 50000

/-- `jsonOverHead` from the source: the byte length of `{"objects":[]}`. -/
def jsonOverHead : Nat := 14

/-- `jsonLineOverHead` from the source: the byte length of `"",`. -/
def jsonLineOverHead : Nat := 3

/-- `retryThreshold` from the source: `float64(50)`.  The retry counter only
takes the integer values 0..50, on which `float64` arithmetic is exact, so
it is modelled as a natural number. -/
def retryThreshold : Nat := 50

/-! ## `createRequestBody`

The Go function reads newline-terminated segments with
`bufio.Reader.ReadString('\n')`, strips the final newline of each segment,
and on `io.EOF` (no newline before end of data) discards the partial
segment and returns the objects gathered so far. -/

/-- Accumulator-based splitter: `acc` holds the bytes of the current
segment in reverse.  A byte `10` closes the segment; end of data discards
the open segment (the `io.EOF` branch of the Go loop). -/
def splitLinesAux : List Nat → List Nat → List (List Nat)
  | [], _ => []
  | b :: rest, acc =>
    if b = 10 then acc.reverse :: splitLinesAux rest []
    else splitLinesAux rest (b :: acc)

/-- Model of Go `createRequestBody`: the `objects` array extracted from a
byte buffer. -/
def createRequestBody (data : List Nat) : List (List Nat) :=
  splitLinesAux data []

/-! ## Serialized request bodies

`createJSON` marshals `RequestBody{Objects: ...}` with `encoding/json`.
The encoder writes `{"objects":[` then the quoted, escaped strings
separated by commas, then `]}`.  `goEscapeByte` models Go's per-byte string
escaping (with the default HTML escaping of `<`, `>`, `&`); bytes ≥ 0x80
are copied through literally, which matches the encoder on valid UTF-8
input (the replacement-character handling of invalid UTF-8 and the
U+2028/U+2029 escapes are outside the modelled fragment). -/

/-- The bytes Go's JSON string encoder emits for one input byte. -/
def goEscapeByte (b : Nat) : List Nat :=
  if b = 34 then [92, 34]
  else if b = 92 then [92, 92]
  else if b = 10 then [92, 110]
  else if b = 13 then [92, 114]
  else if b = 9 then [92, 116]
  else if b < 32 then
    [92, 117, 48, 48, 48 + b / 16, if b % 16 < 10 then 48 + b % 16 else 87 + b % 16]
  else if b = 60 then [92, 117, 48, 48, 51, 99]
  else if b = 62 then [92, 117, 48, 48, 51, 101]
  else if b = 38 then [92, 117, 48, 48, 50, 54]
  else [b]

/-- A quoted, escaped JSON string literal for the byte string `s`. -/
def goEncodeString (s : List Nat) : List Nat :=
  34 :: (s.map goEscapeByte).flatten ++ [34]

/-- Comma-separated concatenation, as the encoder writes array elements. -/
def commaJoin : List (List Nat) → List Nat
  | [] => []
  | [x] => x
  | x :: xs => x ++ 44 :: commaJoin xs

/-- Model of `json.Marshal(RequestBody{Objects: objs})`: the serialized
bytes `{"objects":[...]}`. -/
def marshalRequestBody (objs : List (List Nat)) : List Nat :=
  [123, 34, 111, 98, 106, 101, 99, 116, 115, 34, 58, 91] ++
    commaJoin (objs.map goEncodeString) ++ [93, 125]

/-! ## The text-mode chunker (`InvalidateByURLs`)

State of the scan loop: the remaining byte budget `bufsize` (a Go `int`,
which goes negative, hence `Int`), the `bytes.Buffer` contents, the
request bodies dispatched so far (each recorded as its `objects` array, in
dispatch order), and whether `chkErr`/`log.Fatalf` has aborted the
process.  The `url.Parse` structural check is an external collaborator and
is passed in as a boolean predicate `parseOk`. -/

structure ChunkerState where
  bufsize : Int
  buffer : List Nat
  emitted : List (List (List Nat))
  aborted : Bool

/-- The body slice handed to `createJSON` at an in-loop flush:
`body := make([]byte, maxBodySize)` is 50000 zero bytes, and
`buffer.Read(body)` overwrites its prefix with (at most 50000 bytes of)
the buffer, leaving the zero padding after it. -/
def flushBody (buffer : List Nat) : List Nat :=
  (buffer ++ List.replicate maxBodySize 0).take maxBodySize

/-- One iteration of the `scanner.Scan()` loop of `InvalidateByURLs`:
check the line with `url.Parse` (fatal on failure), charge the budget,
and either append the line to the open buffer or flush the buffer as a
request body and start a new one with the line.  A flush on an empty
buffer makes `buffer.Read` return `io.EOF`, which `chkErr` turns into a
fatal exit before anything is dispatched. -/
def chunkerStep (parseOk : List Nat → Bool) (st : ChunkerState) (line : List Nat) :
    ChunkerState :=
  if st.aborted then st
  else if parseOk line = false then { st with aborted := true }
  else
    let bufsize := st.bufsize - (line.length : Int) - (jsonLineOverHead : Int)
    if 0 < bufsize then
      { st with bufsize := bufsize, buffer := st.buffer ++ line ++ [10] }
    else if st.buffer = [] then { st with aborted := true }
    else
      { bufsize := (maxBodySize : Int) - (jsonOverHead : Int) -
          (line.length : Int) - (jsonLineOverHead : Int),
        buffer := line ++ [10],
        emitted := st.emitted ++ [createRequestBody (flushBody st.buffer)],
        aborted := false }

/-- The code after the scan loop: `buffer.Read` into a fresh 50000-byte
slice (fatal `io.EOF` if the buffer is empty), then
`createJSON(body[:count])` — only the `count` bytes actually read — is
dispatched. -/
def chunkerFinal (st : ChunkerState) : ChunkerState :=
  if st.aborted then st
  else if st.buffer = [] then { st with aborted := true }
  else
    { st with
      buffer := [],
      emitted := st.emitted ++ [createRequestBody (st.buffer.take maxBodySize)] }

/-- Model of `InvalidateByURLs`: from the scanned input lines, the
`objects` arrays of the dispatched request bodies in dispatch order,
paired with whether the run was aborted by `chkErr`. -/
def InvalidateByURLs (parseOk : List Nat → Bool) (lines : List (List Nat)) :
    List (List (List Nat)) × Bool :=
  let st := chunkerFinal (lines.foldl (chunkerStep parseOk)
    { bufsize := (maxBodySize : Int) - (jsonOverHead : Int),
      buffer := [], emitted := [], aborted := false })
  (st.emitted, st.aborted)

/-- The buffer contents corresponding to a list of buffered lines: each
line followed by the `"\n"` the scan loop writes after it. -/
def joinNL (lines : List (List Nat)) : List Nat :=
  (lines.map (fun l => l ++ [10])).flatten

/-- The budget cost the scan loop charges for one line. -/
def lineCost (l : List Nat) : Nat := l.length + jsonLineOverHead

/-- Total budget cost of the lines of one chunk. -/
def chunkCost (c : List (List Nat)) : Nat := (c.map lineCost).sum

/-- A line the chunker handles gracefully: the `url.Parse` check passes,
the line fits into an empty budget
(`length + jsonLineOverHead < maxBodySize - jsonOverHead`), and — being a
scanned line — contains no newline byte. -/
def goodLine (parseOk : List Nat → Bool) (l : List Nat) : Prop :=
  parseOk l = true ∧ l.length ≤ 49982 ∧ 10 ∉ l

/-- A byte the Go JSON string encoder copies through unescaped. -/
def plainByte (b : Nat) : Prop :=
  32 ≤ b ∧ b < 128 ∧ b ≠ 34 ∧ b ≠ 92 ∧ b ≠ 60 ∧ b ≠ 62 ∧ b ≠ 38

instance (b : Nat) : Decidable (plainByte b) := by
  unfold plainByte
  infer_instance

/-- Invariant of the scan loop after processing the lines `processed`:
the run has not aborted; the buffer holds some suffix `bufLines` of the
processed lines as newline-terminated whole lines; everything dispatched
so far plus the buffered lines is exactly `processed`, in order; the
budget equals `maxBodySize - jsonOverHead` minus the cost of the buffered
lines and is still positive; and every dispatched chunk is nonempty, has
cost at most 49985, and consists of processed lines. -/
def ChunkerInv (processed : List (List Nat)) (st : ChunkerState) : Prop :=
  ∃ bufLines : List (List Nat),
    st.aborted = false ∧
    st.buffer = joinNL bufLines ∧
    st.emitted.flatten ++ bufLines = processed ∧
    st.bufsize = (49986 : Int) - (chunkCost bufLines : Int) ∧
    0 < st.bufsize ∧
    (∀ l ∈ bufLines, 10 ∉ l) ∧
    (processed ≠ [] → bufLines ≠ []) ∧
    (∀ c ∈ st.emitted, c ≠ [] ∧ chunkCost c ≤ 49985 ∧ ∀ o ∈ c, o ∈ processed)

/-! ## The retry loop (`invalidationRequest`)

Each delivery attempt consults the HTTP layer; the outcome of one send is
either a transport-level failure (`client.Do` returns an error and a nil
response) or a response with a status code.  The loop is driven by an
oracle list giving the outcome of each successive send.  On a transport
failure the function logs, but the deferred `resp.Body.Close()` then
dereferences the nil response and panics.  Otherwise the loop re-sends
(after the backoff sleep) exactly when `resp.StatusCode >= 500` and
`retryThreshold > count`; any other outcome ends the loop. -/

inductive Response where
  | transportError
  | status (code : Nat)
deriving DecidableEq, Repr

inductive RetryOutcome where
  /-- The goroutine panicked (nil `resp` dereferenced in the deferred
  `resp.Body.Close()` after `client.Do` returned an error). -/
  | panicked
  /-- The loop ended after an attempt whose response had this status. -/
  | done (lastStatus : Nat)
  /-- The oracle was exhausted while the loop wanted another attempt. -/
  | pending
deriving DecidableEq, Repr

/-- Model of `invalidationRequest`: number of delivery attempts performed
and the outcome, given the per-send oracle and the starting `count`. -/
def invalidationRequest : List Response → Nat → Nat × RetryOutcome
  | [], _ => (0, .pending)
  | r :: rest, count =>
    match r with
    | .transportError => (1, .panicked)
    | .status code =>
      if 500 ≤ code ∧ count < retryThreshold then
        let next := invalidationRequest rest (count + 1)
        (next.1 + 1, next.2)
      else (1, .done code)

/-- Model of `randomTime(min, max)`: `rand.Intn(max-min) + min`, with the
random draw supplied as the seed value `r` (`rand.Intn n` is uniform on
`[0, n)`, modelled as `r % n`). -/
def randomTime (lo hi r : Nat) : Nat := r % (hi - lo) + lo

/-- The backoff sleep, in seconds, inserted when the attempt performed with
counter value `count` is retried:
`duration := time.Duration(5) + randomTime(0, int(math.Pow(2, count)))`,
slept as `duration * time.Second`. -/
def backoffDelaySeconds (count r : Nat) : Nat :=
  5 + randomTime 0 (2 ^ count) r

/-! ## The validator (`Validation`)

The authoritative variant takes only the `Config` (the file checks of the
older variant were removed).  Field names follow the Go structs. -/

structure EdgeConfig where
  Host : String
  ClientToken : String
  ClientSecret : String
  AccessToken : String

structure Config where
  method : String
  network : String
  fileType : String
  edgeConf : EdgeConfig

inductive ValidationError where
  | missingHost
  | missingClientToken
  | missingClientSecret
  | missingAccessToken
  | invalidMethod
  | invalidNetwork
  | invalidFileType
deriving DecidableEq, Repr

/-- Model of `Validation`: `none` is a nil error, `some e` identifies which
`errors.New` was returned. -/
def Validation (config : Config) : Option ValidationError :=
  if config.edgeConf.Host.length = 0 then some .missingHost
  else if config.edgeConf.ClientToken.length = 0 then some .missingClientToken
  else if config.edgeConf.ClientSecret.length = 0 then some .missingClientSecret
  else if config.edgeConf.AccessToken.length = 0 then some .missingAccessToken
  else if config.method ≠ "invalidate" ∧ config.method ≠ "delete" then
    some .invalidMethod
  else if config.network ≠ "production" ∧ config.network ≠ "staging" then
    some .invalidNetwork
  else if config.fileType ≠ "json" ∧ config.fileType ≠ "text" then
    some .invalidFileType
  else none

/-! ## The JSON-mode dispatcher (`InvalidateByBodies`)

The Go loop repeatedly calls `dec.Decode(&reqBody)` with
`reqBody : map[string]interface{}`, then `json.Marshal(reqBody)` and
dispatches the marshalled bytes.  `io.EOF` from the decoder (nothing but
whitespace left) is clean termination; any other decode failure —
including a well-formed document that is not a JSON object — breaks the
loop with an error.

The decoder/encoder pair of `encoding/json` is modelled on the fragment
the claims exercise: objects, arrays, strings with the simple
one-character escapes, integer number literals, `true`/`false`/`null`,
and the JSON whitespace set.  (`\uXXXX` escapes, fractional/exponent
number forms, float64 rounding, and decoding a top-level `null` into a
map are outside the modelled fragment.)  Objects decode into a Go map,
modelled as an association list built by in-order insertion where a
duplicate key overwrites in place; `json.Marshal` writes map keys in
sorted (bytewise lexicographic) order. -/

mutual
inductive JValue where
  | jnull
  | jbool (b : Bool)
  | jnum (n : Int)
  | jstr (s : List Nat)
  | jarr (elems : JList)
  | jobj (fields : JFields)
inductive JList where
  | nil
  | cons (v : JValue) (rest : JList)
inductive JFields where
  | nil
  | cons (k : List Nat) (v : JValue) (rest : JFields)
end

/-- The JSON whitespace bytes `encoding/json` skips between tokens. -/
def isWs (b : Nat) : Bool := b == 32 || b == 9 || b == 10 || b == 13

/-- Skip leading whitespace, as the decoder does before every token. -/
def skipWs : List Nat → List Nat
  | [] => []
  | b :: rest => if isWs b then skipWs rest else b :: rest

/-- The one-character string escapes the decoder resolves. -/
def unescapeChar (c : Nat) : Option Nat :=
  if c = 34 then some 34
  else if c = 92 then some 92
  else if c = 47 then some 47
  else if c = 98 then some 8
  else if c = 102 then some 12
  else if c = 110 then some 10
  else if c = 114 then some 13
  else if c = 116 then some 9
  else none

/-- Parse the body of a string literal (after the opening quote) up to the
closing quote; raw control bytes are rejected, as in Go. -/
def parseStringBody : List Nat → List Nat → Option (List Nat × List Nat)
  | [], _ => none
  | b :: rest, acc =>
    if b = 34 then some (acc.reverse, rest)
    else if b = 92 then
      match rest with
      | [] => none
      | c :: rest2 =>
        match unescapeChar c with
        | some d => parseStringBody rest2 (d :: acc)
        | none => none
    else if b < 32 then none
    else parseStringBody rest (b :: acc)

/-- Consume a run of decimal digits, accumulating their value. -/
def parseNat : List Nat → Nat → Nat × List Nat
  | [], acc => (acc, [])
  | b :: rest, acc =>
    if 48 ≤ b ∧ b ≤ 57 then parseNat rest (acc * 10 + (b - 48))
    else (acc, b :: rest)

/-- Decimal digits of a natural number, most significant first. -/
def natToDigits (n : Nat) : List Nat :=
  if _h : n < 10 then [48 + n]
  else natToDigits (n / 10) ++ [48 + n % 10]
termination_by n
decreasing_by exact Nat.div_lt_self (by omega) (by omega)

/-- Decimal representation of an integer, as Go prints integer-valued
float64 numbers. -/
def intToDecimal (n : Int) : List Nat :=
  if n < 0 then 45 :: natToDigits n.natAbs else natToDigits n.toNat

/-- The keys of an association list of fields, in order. -/
def keysOf : JFields → List (List Nat)
  | .nil => []
  | .cons k _ fs => k :: keysOf fs

/-- Go map insertion: overwrite an existing key in place, else append. -/
def insertKV (k : List Nat) (v : JValue) : JFields → JFields
  | .nil => .cons k v .nil
  | .cons k2 v2 rest =>
    if k2 = k then .cons k v rest else .cons k2 v2 (insertKV k v rest)

/-- Fold a field sequence into an accumulated map, in stream order, with
duplicate keys overwriting — the decode order of `map[string]interface{}`. -/
def ffoldInsert : JFields → JFields → JFields
  | acc, .nil => acc
  | acc, .cons k v fs => ffoldInsert (insertKV k v acc) fs

/-- Concatenation of field sequences. -/
def fappend : JFields → JFields → JFields
  | .nil, g => g
  | .cons k v fs, g => .cons k v (fappend fs g)

/-- Bytewise lexicographic order on keys, as Go sorts map keys. -/
def keyLtB : List Nat → List Nat → Bool
  | [], [] => false
  | [], _ :: _ => true
  | _ :: _, [] => false
  | a :: as, b :: bs => if a < b then true else if b < a then false else keyLtB as bs

/-- Insert a field into a key-sorted field sequence. -/
def finsertSorted (k : List Nat) (v : JValue) : JFields → JFields
  | .nil => .cons k v .nil
  | .cons k2 v2 rest =>
    if keyLtB k k2 then .cons k v (.cons k2 v2 rest)
    else .cons k2 v2 (finsertSorted k v rest)

/-- Sort a field sequence by key (insertion sort), as the encoder orders
the keys of a Go map. -/
def sortFields : JFields → JFields
  | .nil => .nil
  | .cons k v rest => finsertSorted k v (sortFields rest)

mutual
/-- Serialize a JSON value with Go's encoder conventions (string escaping
via `goEscapeByte`, no insignificant whitespace), WITHOUT reordering
object fields. -/
def marshalRaw : JValue → List Nat
  | .jnull => [110, 117, 108, 108]
  | .jbool true => [116, 114, 117, 101]
  | .jbool false => [102, 97, 108, 115, 101]
  | .jnum n => intToDecimal n
  | .jstr s => goEncodeString s
  | .jarr .nil => [91, 93]
  | .jarr (.cons v es) => 91 :: (marshalRaw v ++ marshalElems es) ++ [93]
  | .jobj .nil => [123, 125]
  | .jobj (.cons k v fs) =>
    123 :: (goEncodeString k ++ 58 :: marshalRaw v ++ marshalFields fs) ++ [125]
/-- The remaining elements of an array, each preceded by a comma. -/
def marshalElems : JList → List Nat
  | .nil => []
  | .cons v es => 44 :: marshalRaw v ++ marshalElems es
/-- The remaining fields of an object, each preceded by a comma. -/
def marshalFields : JFields → List Nat
  | .nil => []
  | .cons k v fs => 44 :: goEncodeString k ++ 58 :: marshalRaw v ++ marshalFields fs
end

/-- The bytes between the brackets of a nonempty array. -/
def marshalElemsBody : JList → List Nat
  | .nil => []
  | .cons v es => marshalRaw v ++ marshalElems es

/-- The bytes between the braces of a nonempty object. -/
def marshalFieldsBody : JFields → List Nat
  | .nil => []
  | .cons k v fs => goEncodeString k ++ 58 :: marshalRaw v ++ marshalFields fs

mutual
/-- Recursively sort every object's fields by key: the shape in which the
decoded `map[string]interface{}` tree is re-encoded by `json.Marshal`. -/
def sortDeep : JValue → JValue
  | .jarr es => .jarr (sortDeepElems es)
  | .jobj fs => .jobj (sortFields (sortDeepFields fs))
  | v => v
def sortDeepElems : JList → JList
  | .nil => .nil
  | .cons v es => .cons (sortDeep v) (sortDeepElems es)
def sortDeepFields : JFields → JFields
  | .nil => .nil
  | .cons k v fs => .cons k (sortDeep v) (sortDeepFields fs)
end

/-- Model of `json.Marshal` applied to a decoded value: keys of every
object are emitted in sorted order. -/
def marshalValue (v : JValue) : List Nat := marshalRaw (sortDeep v)

mutual
/-- Fuel needed by the parser for a value. -/
def jsizeV : JValue → Nat
  | .jarr es => 1 + jsizeL es
  | .jobj fs => 1 + jsizeF fs
  | _ => 1
def jsizeL : JList → Nat
  | .nil => 0
  | .cons v es => 1 + jsizeV v + jsizeL es
def jsizeF : JFields → Nat
  | .nil => 0
  | .cons _ v fs => 1 + jsizeV v + jsizeF fs
end

mutual
/-- Well-formedness of a value for the round-trip statements: strings and
keys use only plain (unescaped) bytes, and object keys are distinct. -/
def WFv : JValue → Prop
  | .jstr s => ∀ b ∈ s, plainByte b
  | .jarr es => WFl es
  | .jobj fs =>
    WFf fs ∧ (keysOf fs).Nodup ∧ ∀ k ∈ keysOf fs, ∀ b ∈ k, plainByte b
  | _ => True
def WFl : JList → Prop
  | .nil => True
  | .cons v es => WFv v ∧ WFl es
def WFf : JFields → Prop
  | .nil => True
  | .cons _ v fs => WFv v ∧ WFf fs
end

/-- A list whose head (if any) is not a decimal digit: what must follow a
number literal for the parser to stop in the right place. -/
def headSafe : List Nat → Prop
  | [] => True
  | b :: _ => ¬ (48 ≤ b ∧ b ≤ 57)

/-- The continuation constraint a value imposes: only a bare number
literal needs the following byte to be a non-digit. -/
def numSafe : JValue → List Nat → Prop
  | .jnum _, rest => headSafe rest
  | _, _ => True

/-- Integers that `float64` represents exactly and whose shortest
round-tripping decimal is their own digit string, so that Go's
decode-into-`float64` / `json.Marshal` round trip reproduces the literal
byte for byte. -/
def floatExactInt (n : Int) : Prop := n.natAbs ≤ 2 ^ 53

mutual
/-- Every number literal in the value lies in `float64`'s exact integer
range: on such values the modelled integer re-marshalling
(`intToDecimal`) coincides with Go's `float64` round trip. -/
def floatSafeV : JValue → Prop
  | .jnum n => floatExactInt n
  | .jarr es => floatSafeL es
  | .jobj fs => floatSafeF fs
  | _ => True
def floatSafeL : JList → Prop
  | .nil => True
  | .cons v es => floatSafeV v ∧ floatSafeL es
def floatSafeF : JFields → Prop
  | .nil => True
  | .cons _ v fs => floatSafeV v ∧ floatSafeF fs
end

mutual
/-- Parse one JSON value (after skipping whitespace), fuel-bounded. -/
def parseValue : Nat → List Nat → Option (JValue × List Nat)
  | 0, _ => none
  | fuel + 1, s =>
    match skipWs s with
    | [] => none
    | b :: rest =>
      if b = 110 then
        match rest with
        | 117 :: 108 :: 108 :: r => some (.jnull, r)
        | _ => none
      else if b = 116 then
        match rest with
        | 114 :: 117 :: 101 :: r => some (.jbool true, r)
        | _ => none
      else if b = 102 then
        match rest with
        | 97 :: 108 :: 115 :: 101 :: r => some (.jbool false, r)
        | _ => none
      else if b = 34 then
        match parseStringBody rest [] with
        | some (str, r) => some (.jstr str, r)
        | none => none
      else if b = 45 then
        match rest with
        | c :: r =>
          if 48 ≤ c ∧ c ≤ 57 then
            let p := parseNat (c :: r) 0
            some (.jnum (-(p.1 : Int)), p.2)
          else none
        | [] => none
      else if 48 ≤ b ∧ b ≤ 57 then
        let p := parseNat (b :: rest) 0
        some (.jnum (p.1 : Int), p.2)
      else if b = 91 then
        match skipWs rest with
        | [] => none
        | c :: r =>
          if c = 93 then some (.jarr .nil, r)
          else
            match parseElems fuel (c :: r) with
            | some (es, r2) => some (.jarr es, r2)
            | none => none
      else if b = 123 then
        match skipWs rest with
        | [] => none
        | c :: r =>
          if c = 125 then some (.jobj .nil, r)
          else
            match parseFields fuel (c :: r) .nil with
            | some (fs, r2) => some (.jobj fs, r2)
            | none => none
      else none
/-- Parse the elements of a nonempty array up to the closing bracket. -/
def parseElems : Nat → List Nat → Option (JList × List Nat)
  | 0, _ => none
  | fuel + 1, s =>
    match parseValue fuel s with
    | none => none
    | some (v, r) =>
      match skipWs r with
      | 44 :: r2 =>
        match parseElems fuel r2 with
        | some (es, r3) => some (.cons v es, r3)
        | none => none
      | 93 :: r2 => some (.cons v .nil, r2)
      | _ => none
/-- Parse the fields of a nonempty object up to the closing brace,
inserting each into the accumulated map in stream order. -/
def parseFields : Nat → List Nat → JFields → Option (JFields × List Nat)
  | 0, _, _ => none
  | fuel + 1, s, acc =>
    match skipWs s with
    | 34 :: r =>
      match parseStringBody r [] with
      | none => none
      | some (k, r1) =>
        match skipWs r1 with
        | 58 :: r2 =>
          match parseValue fuel r2 with
          | none => none
          | some (v, r3) =>
            match skipWs r3 with
            | 44 :: r4 => parseFields fuel r4 (insertKV k v acc)
            | 125 :: r4 => some (insertKV k v acc, r4)
            | _ => none
        | _ => none
    | _ => none
end

/-- One `dec.Decode(&reqBody)` call on the remaining stream, on the
modelled JSON fragment: succeeds with the decoded map and the unconsumed
rest for an object document.  Go's `Decode` also accepts inputs outside
this fragment (a top-level `null` leaves the map nil without error, and
fractional or exponent numbers and `\uXXXX` escapes decode fine); the
theorems below restrict their hypotheses so that such inputs are out of
scope and every covered input behaves alike in the model and in Go. -/
def decodeDoc (s : List Nat) : Option (JFields × List Nat) :=
  match parseValue (s.length + 1) s with
  | some (.jobj fs, rest) => some (fs, rest)
  | _ => none

/-- The decode/dispatch loop of `InvalidateByBodies`: bodies dispatched in
order, paired with whether the loop ended with a non-`io.EOF` error.  The
fuel only bounds the number of loop iterations; with the fuel chosen in
`InvalidateByBodies` (stream length + 1) it never runs out, since each
decoded document consumes at least one byte. -/
def invalidateByBodiesLoop : Nat → List Nat → List (List Nat) × Bool
  | 0, _ => ([], true)
  | fuel + 1, s =>
    if skipWs s = [] then ([], false)
    else
      match decodeDoc s with
      | none => ([], true)
      | some (fs, rest) =>
        let body := marshalRaw (sortDeep (.jobj fs))
        let r := invalidateByBodiesLoop fuel rest
        (body :: r.1, r.2)

/-- Model of `InvalidateByBodies`: the marshalled request bodies
dispatched from the byte stream, in dispatch order, and whether the
function returned a non-nil error. -/
def InvalidateByBodies (s : List Nat) : List (List Nat) × Bool :=
  invalidateByBodiesLoop (s.length + 1) s

/-- A well-formed JSON-mode input stream: each document is an object,
preceded by optional whitespace. -/
def jsonStream (docs : List (List Nat × JFields)) : List Nat :=
  (docs.map (fun p => p.1 ++ marshalRaw (.jobj p.2))).flatten

/-! ## Splitter lemmas -/

/-- Splitting a newline-free segment followed by a newline yields one
object (the segment appended to the accumulated bytes) and continues. -/
theorem splitLinesAux_line (l : List Nat) (hl : 10 ∉ l) :
    ∀ rest acc, splitLinesAux (l ++ 10 :: rest) acc =
      (acc.reverse ++ l) :: splitLinesAux rest [] := by
  induction l with
  | nil => intro rest acc; simp [splitLinesAux]
  | cons b bs ih =>
    intro rest acc
    have hb : ¬ b = 10 := fun h => hl (h ▸ List.mem_cons_self b bs)
    have hbs : 10 ∉ bs := fun h => hl (List.mem_cons_of_mem b h)
    simp only [List.cons_append, splitLinesAux, if_neg hb, List.append_eq]
    rw [ih hbs rest (b :: acc)]
    simp

/-- Data with no newline byte yields no object: the `io.EOF` branch
discards the whole partial segment. -/
theorem splitLinesAux_no_newline (s : List Nat) (hs : ∀ b ∈ s, b ≠ 10) :
    ∀ acc, splitLinesAux s acc = [] := by
  induction s with
  | nil => intro _; rfl
  | cons b bs ih =>
    intro acc
    simp only [splitLinesAux, if_neg (hs b (List.mem_cons_self b bs))]
    exact ih (fun x hx => hs x (List.mem_cons_of_mem b hx)) _

/-- `createRequestBody` recovers exactly the newline-terminated lines and
discards any trailing bytes with no newline (such as the zero padding of
the 50000-byte `body` slice). -/
theorem createRequestBody_joinNL (lines : List (List Nat)) (tail : List Nat)
    (hl : ∀ l ∈ lines, 10 ∉ l) (ht : ∀ b ∈ tail, b ≠ 10) :
    createRequestBody (joinNL lines ++ tail) = lines := by
  induction lines with
  | nil =>
    simp only [joinNL, List.map_nil, List.flatten_nil, List.nil_append]
    exact splitLinesAux_no_newline tail ht []
  | cons l ls ih =>
    unfold createRequestBody joinNL
    simp only [List.map_cons, List.flatten_cons, List.append_assoc, List.singleton_append,
      List.cons_append, List.nil_append, List.append_eq]
    rw [splitLinesAux_line l (hl l (List.mem_cons_self l ls))]
    simp only [List.reverse_nil, List.nil_append]
    have := ih (fun x hx => hl x (List.mem_cons_of_mem l hx))
    unfold createRequestBody joinNL at this
    rw [this]

/-! ## Chunker bookkeeping lemmas -/

theorem joinNL_nil : joinNL [] = [] := rfl

theorem joinNL_append (a b : List (List Nat)) :
    joinNL (a ++ b) = joinNL a ++ joinNL b := by
  simp [joinNL]

theorem joinNL_eq_nil_iff (ls : List (List Nat)) : joinNL ls = [] ↔ ls = [] := by
  cases ls with
  | nil => simp [joinNL]
  | cons l t => simp [joinNL]

theorem joinNL_length (ls : List (List Nat)) :
    (joinNL ls).length = (ls.map (fun l => l.length + 1)).sum := by
  induction ls with
  | nil => rfl
  | cons l t ih =>
    simp only [joinNL, List.map_cons, List.flatten_cons, List.length_append, List.length_cons] at *
    simp [ih]

theorem joinNL_length_le_chunkCost (ls : List (List Nat)) :
    (joinNL ls).length ≤ chunkCost ls := by
  rw [joinNL_length]
  unfold chunkCost
  induction ls with
  | nil => simp
  | cons l t ih =>
    simp only [List.map_cons, List.sum_cons, lineCost, jsonLineOverHead]
    omega

/-- If the buffered data fits in the 50000-byte slice, `buffer.Read` copies
all of it and leaves the zero padding after it. -/
theorem flushBody_small (x : List Nat) (hx : x.length ≤ maxBodySize) :
    flushBody x = x ++ List.replicate (maxBodySize - x.length) 0 := by
  unfold flushBody
  rw [List.take_append_eq_append_take, List.take_of_length_le hx, List.take_replicate]
  congr 2
  simp only [maxBodySize] at hx ⊢
  omega

/-- An in-loop flush of a buffer of whole lines that fits the slice
dispatches exactly those lines as the chunk's objects. -/
theorem createRequestBody_flush (ls : List (List Nat)) (h10 : ∀ l ∈ ls, 10 ∉ l)
    (hlen : (joinNL ls).length ≤ maxBodySize) :
    createRequestBody (flushBody (joinNL ls)) = ls := by
  rw [flushBody_small _ hlen]
  exact createRequestBody_joinNL ls _ h10
    (fun b hb => by rw [List.eq_of_mem_replicate hb]; omega)

/-- The final flush (`body[:count]`, no padding) of a fitting buffer of
whole lines likewise dispatches exactly those lines. -/
theorem createRequestBody_final (ls : List (List Nat)) (h10 : ∀ l ∈ ls, 10 ∉ l)
    (hlen : (joinNL ls).length ≤ maxBodySize) :
    createRequestBody ((joinNL ls).take maxBodySize) = ls := by
  rw [List.take_of_length_le hlen]
  have := createRequestBody_joinNL ls [] h10 (by simp)
  simpa using this

/-- One scan-loop iteration on a good line preserves the invariant. -/
theorem chunkerStep_inv (parseOk : List Nat → Bool) (processed : List (List Nat))
    (st : ChunkerState) (l : List Nat) (hinv : ChunkerInv processed st)
    (hl : goodLine parseOk l) :
    ChunkerInv (processed ++ [l]) (chunkerStep parseOk st l) := by
  obtain ⟨bufLines, hab, hbuf, hcat, hsize, hpos, h10, hne, hchunks⟩ := hinv
  obtain ⟨hpk, hlen, hl10⟩ := hl
  by_cases hfit : (0 : Int) < st.bufsize - (l.length : Int) - (jsonLineOverHead : Int)
  · have hstep : chunkerStep parseOk st l =
        { st with bufsize := st.bufsize - (l.length : Int) - (jsonLineOverHead : Int),
                  buffer := st.buffer ++ l ++ [10] } := by
      unfold chunkerStep
      rw [hab, hpk]
      simp [hfit]
    rw [hstep]
    refine ⟨bufLines ++ [l], hab, ?_, ?_, ?_, hfit, ?_, ?_, ?_⟩
    · simp only [hbuf, joinNL_append]
      simp [joinNL]
    · rw [← List.append_assoc, hcat]
    · rw [hsize]
      simp only [chunkCost, List.map_append, List.sum_append, List.map_cons,
        List.map_nil, List.sum_cons, List.sum_nil, lineCost, jsonLineOverHead]
      push_cast
      ring
    · intro x hx
      rcases List.mem_append.1 hx with hx | hx
      · exact h10 x hx
      · rw [List.mem_singleton.1 hx]; exact hl10
    · intro _; simp
    · intro c hc
      obtain ⟨hc1, hc2, hc3⟩ := hchunks c hc
      exact ⟨hc1, hc2, fun o ho => List.mem_append_left _ (hc3 o ho)⟩
  · have hbufLine : bufLines ≠ [] := by
      intro h0
      subst h0
      rw [show chunkCost [] = 0 from rfl] at hsize
      rw [hsize] at hfit
      simp only [jsonLineOverHead] at hfit
      omega
    have hbufne : st.buffer ≠ [] := by
      rw [hbuf, Ne, joinNL_eq_nil_iff]
      exact hbufLine
    have hcost : chunkCost bufLines ≤ 49985 := by
      rw [hsize] at hpos
      omega
    have hflen : (joinNL bufLines).length ≤ maxBodySize := by
      have := joinNL_length_le_chunkCost bufLines
      simp only [maxBodySize]
      omega
    have hstep : chunkerStep parseOk st l =
        { bufsize := (maxBodySize : Int) - (jsonOverHead : Int) -
            (l.length : Int) - (jsonLineOverHead : Int),
          buffer := l ++ [10],
          emitted := st.emitted ++ [createRequestBody (flushBody st.buffer)],
          aborted := false } := by
      unfold chunkerStep
      rw [hab, hpk]
      simp [hfit, hbufne]
    have hchunk : createRequestBody (flushBody st.buffer) = bufLines := by
      rw [hbuf]
      exact createRequestBody_flush bufLines h10 hflen
    rw [hstep, hchunk]
    refine ⟨[l], rfl, ?_, ?_, ?_, ?_, ?_, ?_, ?_⟩
    · simp [joinNL]
    · simp only [List.flatten_append, List.flatten_cons, List.flatten_nil,
        List.append_nil]
      rw [hcat]
    · simp only [chunkCost, List.map_cons, List.map_nil, List.sum_cons,
        List.sum_nil, lineCost, maxBodySize, jsonOverHead, jsonLineOverHead]
      push_cast
      ring
    · simp only [chunkCost, List.map_cons, List.map_nil, List.sum_cons,
        List.sum_nil, lineCost, maxBodySize, jsonOverHead, jsonLineOverHead]
      push_cast
      omega
    · intro x hx
      rw [List.mem_singleton.1 hx]
      exact hl10
    · intro _; simp
    · intro c hc
      rcases List.mem_append.1 hc with hc | hc
      · obtain ⟨hc1, hc2, hc3⟩ := hchunks c hc
        exact ⟨hc1, hc2, fun o ho => List.mem_append_left _ (hc3 o ho)⟩
      · rw [List.mem_singleton.1 hc]
        refine ⟨hbufLine, hcost, fun o ho => ?_⟩
        exact List.mem_append_left _ (hcat ▸ List.mem_append_right _ ho)

/-- The invariant is preserved across the whole scan loop. -/
theorem chunker_foldl_inv (parseOk : List Nat → Bool) (ls : List (List Nat)) :
    ∀ (processed : List (List Nat)) (st : ChunkerState),
      ChunkerInv processed st → (∀ l ∈ ls, goodLine parseOk l) →
      ChunkerInv (processed ++ ls) (ls.foldl (chunkerStep parseOk) st) := by
  induction ls with
  | nil => intro processed st h _; simpa using h
  | cons l t ih =>
    intro processed st h hg
    rw [List.foldl_cons]
    have h1 := chunkerStep_inv parseOk processed st l h (hg l (List.mem_cons_self l t))
    have h2 := ih (processed ++ [l]) _ h1 (fun x hx => hg x (List.mem_cons_of_mem l hx))
    simpa [List.append_assoc] using h2

/-- The invariant holds before the scan loop starts. -/
theorem chunkerInv_init :
    ChunkerInv []
      { bufsize := (maxBodySize : Int) - (jsonOverHead : Int),
        buffer := [], emitted := [], aborted := false } := by
  refine ⟨[], rfl, rfl, rfl, ?_, ?_, ?_, ?_, ?_⟩
  · simp [chunkCost, maxBodySize, jsonOverHead]
  · simp [maxBodySize, jsonOverHead]
  · intro x hx; cases hx
  · intro h; cases h rfl
  · intro c hc; cases hc

/-- Master description of the text-mode chunker on good input lines:
the dispatched `objects` arrays concatenate to exactly the input, every
dispatched chunk is nonempty, within budget, and made of whole input
lines; an empty input dispatches nothing and dies in `chkErr`, and a
nonempty input completes without abort and dispatches at least one
chunk. -/
theorem invalidateByURLs_spec (parseOk : List Nat → Bool) (lines : List (List Nat))
    (h : ∀ l ∈ lines, goodLine parseOk l) :
    (InvalidateByURLs parseOk lines).1.flatten = lines ∧
    (∀ c ∈ (InvalidateByURLs parseOk lines).1,
        c ≠ [] ∧ chunkCost c ≤ 49985 ∧ ∀ o ∈ c, o ∈ lines) ∧
    (lines = [] → InvalidateByURLs parseOk lines = ([], true)) ∧
    (lines ≠ [] → (InvalidateByURLs parseOk lines).2 = false ∧
        (InvalidateByURLs parseOk lines).1 ≠ []) := by
  have hinv := chunker_foldl_inv parseOk lines []
    { bufsize := (maxBodySize : Int) - (jsonOverHead : Int),
      buffer := [], emitted := [], aborted := false } chunkerInv_init h
  rw [List.nil_append] at hinv
  obtain ⟨bufLines, hab, hbuf, hcat, hsize, hpos, h10, hne, hchunks⟩ := hinv
  have hrun : InvalidateByURLs parseOk lines =
      ((chunkerFinal (lines.foldl (chunkerStep parseOk)
          { bufsize := (maxBodySize : Int) - (jsonOverHead : Int),
            buffer := [], emitted := [], aborted := false })).emitted,
        (chunkerFinal (lines.foldl (chunkerStep parseOk)
          { bufsize := (maxBodySize : Int) - (jsonOverHead : Int),
            buffer := [], emitted := [], aborted := false })).aborted) := rfl
  set stf := lines.foldl (chunkerStep parseOk)
    { bufsize := (maxBodySize : Int) - (jsonOverHead : Int),
      buffer := [], emitted := [], aborted := false } with hstf
  by_cases hbl : bufLines = []
  · subst hbl
    have hbuf' : stf.buffer = [] := by simpa [joinNL] using hbuf
    have hfin : chunkerFinal stf = { stf with aborted := true } := by
      unfold chunkerFinal
      rw [hab, hbuf']
      simp
    have hlines : lines = [] := by
      by_contra hne'
      exact (hne hne') rfl
    have hflat : stf.emitted.flatten = [] := by
      rw [List.append_nil] at hcat
      rw [hcat, hlines]
    have hemit : stf.emitted = [] := by
      cases hE : stf.emitted with
      | nil => rfl
      | cons c t =>
        rw [hE, List.flatten_cons] at hflat
        have hc0 : c = [] := (List.append_eq_nil.1 hflat).1
        have := (hchunks c (by rw [hE]; exact List.mem_cons_self c t)).1
        exact absurd hc0 this
    rw [hrun, hfin]
    refine ⟨by simp [hemit, hlines], ?_, by simp [hemit], by simp [hlines]⟩
    intro c hc
    simp [hemit] at hc
  · have hbufne : stf.buffer ≠ [] := by
      rw [hbuf, Ne, joinNL_eq_nil_iff]
      exact hbl
    have hcost : chunkCost bufLines ≤ 49985 := by
      rw [hsize] at hpos
      omega
    have hflen : (joinNL bufLines).length ≤ maxBodySize := by
      have := joinNL_length_le_chunkCost bufLines
      simp only [maxBodySize]
      omega
    have hfin : chunkerFinal stf =
        { stf with
          buffer := []
          emitted := stf.emitted ++
            [createRequestBody (stf.buffer.take maxBodySize)] } := by
      unfold chunkerFinal
      rw [hab, if_neg hbufne]
      simp
    have hchunk : createRequestBody (stf.buffer.take maxBodySize) = bufLines := by
      rw [hbuf]
      exact createRequestBody_final bufLines h10 hflen
    rw [hrun, hfin]
    simp only [hchunk]
    refine ⟨?_, ?_, ?_, fun _ => ⟨hab, by simp⟩⟩
    · rw [List.flatten_append, List.flatten_cons, List.flatten_nil, List.append_nil,
        hcat]
    · intro c hc
      rcases List.mem_append.1 hc with hc | hc
      · obtain ⟨hc1, hc2, hc3⟩ := hchunks c hc
        exact ⟨hc1, hc2, hc3⟩
      · rw [List.mem_singleton.1 hc]
        refine ⟨hbl, hcost, fun o ho => ?_⟩
        rw [← hcat]
        exact List.mem_append_right _ ho
    · intro hlines
      rw [hlines] at hcat
      exact absurd (List.append_eq_nil.1 hcat).2 hbl

/-! ## Retry-loop lemmas -/

/-- The attempt counter bounds the number of attempts the loop can still
perform: starting from `count`, at most `retryThreshold + 1 - count`
attempts happen. -/
theorem invalidationRequest_le (responses : List Response) :
    ∀ count, count ≤ retryThreshold →
      (invalidationRequest responses count).1 ≤ retryThreshold + 1 - count := by
  induction responses with
  | nil => intro count _; simp [invalidationRequest]
  | cons r rest ih =>
    intro count hcount
    match r with
    | .transportError => simp only [invalidationRequest]; omega
    | .status code =>
      simp only [invalidationRequest]
      split
      · next h =>
        have := ih (count + 1) (by omega)
        omega
      · omega

/-- Unfolding of one retried attempt: a status of 500 or above with budget
remaining adds one attempt and recurses on the rest of the oracle. -/
theorem invalidationRequest_cons_retry (code : Nat) (rest : List Response)
    (count : Nat) (h : 500 ≤ code ∧ count < retryThreshold) :
    invalidationRequest (.status code :: rest) count =
      ((invalidationRequest rest (count + 1)).1 + 1,
        (invalidationRequest rest (count + 1)).2) := by
  simp [invalidationRequest, h]

/-- Unfolding of one terminal attempt: a status below 500, or an exhausted
budget, ends the loop after this single attempt. -/
theorem invalidationRequest_cons_stop (code : Nat) (rest : List Response)
    (count : Nat) (h : ¬ (500 ≤ code ∧ count < retryThreshold)) :
    invalidationRequest (.status code :: rest) count = (1, .done code) := by
  simp [invalidationRequest, h]

/-- A run of retryable responses drives the counter to the threshold: with
`count + k = retryThreshold + 1` and `1 ≤ k`, exactly `k` attempts happen
and the loop then stops regardless of the remaining oracle. -/
theorem invalidationRequest_replicate500 (k : Nat) :
    ∀ (count : Nat) (rest : List Response), 1 ≤ k →
      count + k = retryThreshold + 1 →
      invalidationRequest (List.replicate k (.status 500) ++ rest) count =
        (k, .done 500) := by
  induction k with
  | zero => intro _ _ h; omega
  | succ k ih =>
    intro count rest _ hsum
    rw [List.replicate_succ, List.cons_append]
    rcases Nat.eq_zero_or_pos k with hk | hk
    · subst hk
      rw [invalidationRequest_cons_stop 500 _ count
        (by simp only [retryThreshold] at hsum ⊢; omega)]
    · rw [invalidationRequest_cons_retry 500 _ count
        (by simp only [retryThreshold] at hsum ⊢; omega)]
      rw [ih (count + 1) rest hk (by omega)]

/-! ## Claim C3 — response classification of the retry loop -/

/-- C3 counterexample.  The claim says an HTTP 429 response causes another
attempt and any status other than 201/429/507 is terminal.  In the code a
429 response is terminal after a single attempt, while a 500 response is
followed by a further attempt. -/
theorem c3_counterexample :
    invalidationRequest [.status 429, .status 201] 0 = (1, .done 429) ∧
    invalidationRequest [.status 500, .status 400] 0 = (2, .done 400) := by
  decide

/-- C3 (amended): the outcome classification of a delivery attempt is by
`resp.StatusCode >= 500`: any status below 500 — including 201 and 429 —
is terminal with no further attempt, and any status of 500 or above causes
another attempt while the retry budget lasts (and is terminal once the
budget is exhausted). -/
theorem c3_classification (code : Nat) (rest : List Response) (count : Nat) :
    (code < 500 → invalidationRequest (.status code :: rest) count = (1, .done code)) ∧
    (500 ≤ code → count < retryThreshold →
      invalidationRequest (.status code :: rest) count =
        ((invalidationRequest rest (count + 1)).1 + 1,
          (invalidationRequest rest (count + 1)).2)) ∧
    (500 ≤ code → retryThreshold ≤ count →
      invalidationRequest (.status code :: rest) count = (1, .done code)) := by
  refine ⟨fun h => ?_, fun h h2 => ?_, fun h h2 => ?_⟩
  · have hc : ¬ (500 ≤ code ∧ count < retryThreshold) := by omega
    simp [invalidationRequest, hc]
  · have hc : 500 ≤ code ∧ count < retryThreshold := ⟨h, h2⟩
    simp [invalidationRequest, hc]
  · have hc : ¬ (500 ≤ code ∧ count < retryThreshold) := by omega
    simp [invalidationRequest, hc]

/-- Witness for `c3_classification` at concrete inputs: 201 ends the loop
at once, and a 507 at fresh budget is followed by another attempt. -/
theorem c3_witness :
    invalidationRequest [.status 201] 0 = (1, .done 201) ∧
    invalidationRequest [.status 507, .status 201] 0 =
      ((invalidationRequest [.status 201] 1).1 + 1,
        (invalidationRequest [.status 201] 1).2) :=
  ⟨(c3_classification 201 [] 0).1 (by decide),
    (c3_classification 507 [.status 201] 0).2.1 (by decide) (by decide)⟩

/-! ## Claim C4 — the retry budget -/

/-- C4 counterexample.  The claim caps a chunk at 10 delivery attempts
(`retryThreshold = 10`); in the code `retryThreshold` is 50 and eleven
consecutive 500 responses already produce 11 attempts. -/
theorem c4_counterexample :
    (invalidationRequest (List.replicate 11 (.status 500)) 0).1 = 11 ∧
    ¬ (invalidationRequest (List.replicate 11 (.status 500)) 0).1 ≤ 10 := by
  decide

/-- C4 (amended): `retryThreshold` is 50 and the loop performs at most 51
delivery attempts in total (the attempt counter runs 0..50); a chunk whose
first 51 attempts all yield retryable (status ≥ 500) responses stops after
those 51 attempts, with no 52nd attempt no matter what the transport would
answer next. -/
theorem c4_retry_budget (responses rest : List Response) :
    (invalidationRequest responses 0).1 ≤ retryThreshold + 1 ∧
    invalidationRequest
        (List.replicate (retryThreshold + 1) (.status 500) ++ rest) 0 =
      (retryThreshold + 1, .done 500) := by
  constructor
  · have := invalidationRequest_le responses 0 (by omega)
    omega
  · exact invalidationRequest_replicate500 (retryThreshold + 1) 0 rest (by omega) (by omega)

/-! ## Claim C5 — the backoff delay -/

/-- C5 counterexample.  The claim puts the delay before attempt `i + 1` in
`[5·2^i/2, 5·2^i]` seconds; at `i = 2` (lower bound 10) the code can sleep
exactly 5 seconds. -/
theorem c5_counterexample :
    backoffDelaySeconds 2 0 = 5 ∧ ¬ 5 * 2 ^ 2 / 2 ≤ backoffDelaySeconds 2 0 := by
  decide

/-- C5 (amended): the delay inserted when the attempt with counter `i` is
retried lies in `[5, 5 + 2^i - 1]` seconds: a constant base of 5 seconds
plus a uniform integer jitter drawn from `[0, 2^i)` — not a half-to-full
jittered exponential with base 5. -/
theorem c5_backoff_range (count r : Nat) :
    5 ≤ backoffDelaySeconds count r ∧
      backoffDelaySeconds count r ≤ 5 + (2 ^ count - 1) := by
  unfold backoffDelaySeconds randomTime
  simp only [Nat.sub_zero, Nat.add_zero]
  have hpos : 0 < 2 ^ count := Nat.pow_pos (by norm_num)
  have := Nat.mod_lt r hpos
  omega

/-! ## Claim C6 — transport-level failure -/

/-- C6: when `client.Do` fails at the transport level it returns a nil
response; the code logs the error but then evaluates `resp.Body` in the
deferred `resp.Body.Close()`, dereferencing the nil response and
panicking.  The delivery routine therefore crashes instead of proceeding
to another attempt: the attempt ends the run with a panic whatever the
remaining oracle or the retry budget. -/
theorem c6_transport_crash (rest : List Response) (count : Nat) :
    invalidationRequest (.transportError :: rest) count = (1, .panicked) := by
  simp [invalidationRequest]

/-! ## Claim C7 — the validator -/

/-- C7: `Validation` succeeds exactly when all four credential fields are
non-empty, the method is `invalidate` or `delete`, the network is
`production` or `staging`, and the file type is `json` or `text`; on
failure it reports the first violated rule in the order host, client
token, client secret, access token, method, network, file type,
short-circuiting at the first violation. -/
theorem c7_validation_order (c : Config) :
    (Validation c = none ↔
      c.edgeConf.Host.length ≠ 0 ∧ c.edgeConf.ClientToken.length ≠ 0 ∧
      c.edgeConf.ClientSecret.length ≠ 0 ∧ c.edgeConf.AccessToken.length ≠ 0 ∧
      (c.method = "invalidate" ∨ c.method = "delete") ∧
      (c.network = "production" ∨ c.network = "staging") ∧
      (c.fileType = "json" ∨ c.fileType = "text")) ∧
    (Validation c = some .missingHost ↔ c.edgeConf.Host.length = 0) ∧
    (Validation c = some .missingClientToken ↔
      c.edgeConf.Host.length ≠ 0 ∧ c.edgeConf.ClientToken.length = 0) ∧
    (Validation c = some .missingClientSecret ↔
      c.edgeConf.Host.length ≠ 0 ∧ c.edgeConf.ClientToken.length ≠ 0 ∧
      c.edgeConf.ClientSecret.length = 0) ∧
    (Validation c = some .missingAccessToken ↔
      c.edgeConf.Host.length ≠ 0 ∧ c.edgeConf.ClientToken.length ≠ 0 ∧
      c.edgeConf.ClientSecret.length ≠ 0 ∧ c.edgeConf.AccessToken.length = 0) ∧
    (Validation c = some .invalidMethod ↔
      c.edgeConf.Host.length ≠ 0 ∧ c.edgeConf.ClientToken.length ≠ 0 ∧
      c.edgeConf.ClientSecret.length ≠ 0 ∧ c.edgeConf.AccessToken.length ≠ 0 ∧
      ¬ (c.method = "invalidate" ∨ c.method = "delete")) ∧
    (Validation c = some .invalidNetwork ↔
      c.edgeConf.Host.length ≠ 0 ∧ c.edgeConf.ClientToken.length ≠ 0 ∧
      c.edgeConf.ClientSecret.length ≠ 0 ∧ c.edgeConf.AccessToken.length ≠ 0 ∧
      (c.method = "invalidate" ∨ c.method = "delete") ∧
      ¬ (c.network = "production" ∨ c.network = "staging")) ∧
    (Validation c = some .invalidFileType ↔
      c.edgeConf.Host.length ≠ 0 ∧ c.edgeConf.ClientToken.length ≠ 0 ∧
      c.edgeConf.ClientSecret.length ≠ 0 ∧ c.edgeConf.AccessToken.length ≠ 0 ∧
      (c.method = "invalidate" ∨ c.method = "delete") ∧
      (c.network = "production" ∨ c.network = "staging") ∧
      ¬ (c.fileType = "json" ∨ c.fileType = "text")) := by
  unfold Validation
  split_ifs with h1 h2 h3 h4 h5 h6 h7 <;> simp_all <;> tauto

/-! ## Serialized-size lemmas -/

/-- Plain bytes are copied unescaped by the string encoder. -/
theorem goEscapeByte_plain (b : Nat) (h : plainByte b) : goEscapeByte b = [b] := by
  obtain ⟨h1, h2, h3, h4, h5, h6, h7⟩ := h
  unfold goEscapeByte
  split_ifs <;> first | rfl | omega

/-- Encoded length of a plain string: the raw bytes plus the two quotes. -/
theorem goEncodeString_plain_length (s : List Nat) (h : ∀ b ∈ s, plainByte b) :
    (goEncodeString s).length = s.length + 2 := by
  unfold goEncodeString
  have hmap : s.map goEscapeByte = s.map (fun b => [b]) :=
    List.map_congr_left (fun b hb => goEscapeByte_plain b (h b hb))
  rw [hmap]
  simp only [List.length_cons, List.length_append, List.length_flatten,
    List.map_map]
  have : (s.map fun b => ((fun b => [b]) b).length) = s.map (fun _ => 1) := by
    simp
  simp only [Function.comp_def] at *
  rw [this]
  induction s with
  | nil => rfl
  | cons b t ih =>
    simp_all
    omega

/-- Length of a comma-joined list of pieces. -/
theorem commaJoin_length (xs : List (List Nat)) :
    xs ≠ [] → (commaJoin xs).length + 1 = (xs.map List.length).sum + xs.length := by
  induction xs with
  | nil => intro h; cases h rfl
  | cons x t ih =>
    intro _
    cases t with
    | nil => simp [commaJoin]
    | cons y u =>
      have h2 := ih (by simp)
      simp only [commaJoin, List.length_append, List.length_cons, List.map_cons,
        List.sum_cons] at *
      omega

/-- Summing `length + k` over a list of lists. -/
theorem sum_map_add_const (c : List (List Nat)) (k : Nat) :
    (c.map (fun x => x.length + k)).sum = (c.map List.length).sum + k * c.length := by
  induction c with
  | nil => simp
  | cons x t ih =>
    simp only [List.map_cons, List.sum_cons, List.length_cons, ih]
    ring

/-- The chunk cost in terms of raw lengths. -/
theorem chunkCost_eq (c : List (List Nat)) :
    chunkCost c = (c.map List.length).sum + 3 * c.length := by
  unfold chunkCost lineCost jsonLineOverHead
  exact sum_map_add_const c 3

/-- A chunk of plain lines within the scan budget serializes to at most
`maxBodySize` bytes: the body is `14 + Σ (lengthᵢ + 2) + (k - 1)` bytes,
which is `13 + chunkCost` for a nonempty chunk. -/
theorem marshalRequestBody_length_le (c : List (List Nat))
    (hplain : ∀ o ∈ c, ∀ b ∈ o, plainByte b) (hcost : chunkCost c ≤ 49985) :
    (marshalRequestBody c).length ≤ maxBodySize := by
  unfold marshalRequestBody
  rcases List.eq_nil_or_concat c with hc | _
  · subst hc
    simp [commaJoin, maxBodySize]
  · have hne : c.map goEncodeString ≠ [] := by
      intro h0
      rcases c with _ | ⟨x, t⟩
      · simp_all
      · simp at h0
    have hlen := commaJoin_length (c.map goEncodeString) hne
    have hmap : ((c.map goEncodeString).map List.length).sum =
        (c.map (fun x => x.length + 2)).sum := by
      rw [List.map_map]
      apply congrArg
      apply List.map_congr_left
      intro x hx
      exact goEncodeString_plain_length x (hplain x hx)
    rw [hmap, sum_map_add_const] at hlen
    have hcost' := chunkCost_eq c
    simp only [List.length_append, List.length_map, List.length_cons,
      List.length_nil, maxBodySize]
    simp only [List.length_map] at hlen
    omega

/-- When the buffer holds at least 50000 bytes, `buffer.Read` fills the
whole slice with buffer bytes: no padding survives, and the bytes beyond
the first 50000 stay behind (and are discarded by the following
`buffer.Reset`). -/
theorem flushBody_big (x : List Nat) (hx : maxBodySize ≤ x.length) :
    flushBody x = x.take maxBodySize := by
  unfold flushBody
  rw [List.take_append_eq_append_take]
  have h0 : maxBodySize - x.length = 0 := by omega
  rw [h0]
  simp

/-! ## Concrete chunker runs used by the counterexamples -/

/-- A 49983-byte line exactly exhausts a fresh budget
(`49986 - 49983 - 3 = 0`). -/
theorem bufsizeFatalCond (L : List Nat) (hLlen : L.length = 49983) :
    ¬ ((0 : Int) < (maxBodySize : Int) - (jsonOverHead : Int) -
      (L.length : Int) - (jsonLineOverHead : Int)) := by
  rw [hLlen]; decide

/-- A 49983-byte first line sends the scan loop to the flush branch with
the buffer still empty, so `buffer.Read` yields `io.EOF` and `chkErr`
aborts. -/
theorem fatalStep49983 (L : List Nat) (hLlen : L.length = 49983) :
    chunkerStep (fun _ => true)
      { bufsize := (maxBodySize : Int) - (jsonOverHead : Int),
        buffer := [], emitted := [], aborted := false } L =
      { bufsize := (maxBodySize : Int) - (jsonOverHead : Int),
        buffer := [], emitted := [], aborted := true } := by
  show (if (0 : Int) < (maxBodySize : Int) - (jsonOverHead : Int) -
        (L.length : Int) - (jsonLineOverHead : Int)
      then { bufsize := (maxBodySize : Int) - (jsonOverHead : Int) -
               (L.length : Int) - (jsonLineOverHead : Int),
             buffer := [] ++ L ++ [10], emitted := [], aborted := false }
      else { bufsize := (maxBodySize : Int) - (jsonOverHead : Int),
             buffer := [], emitted := [], aborted := true } :
      ChunkerState) =
    { bufsize := (maxBodySize : Int) - (jsonOverHead : Int),
      buffer := [], emitted := [], aborted := true }
  rw [if_neg (bufsizeFatalCond L hLlen)]

/-- The full run on a single 49983-byte line: nothing dispatched, run
aborted. -/
theorem fatalRun49983 (L : List Nat) (hLlen : L.length = 49983) :
    InvalidateByURLs (fun _ => true) [L] = ([], true) := by
  unfold InvalidateByURLs
  simp only [List.foldl_cons, List.foldl_nil, fatalStep49983 L hLlen]
  rfl

/-- The first scan iteration on the 1-byte line `"a"`. -/
theorem stepOpen97 :
    chunkerStep (fun _ => true)
      { bufsize := (maxBodySize : Int) - (jsonOverHead : Int),
        buffer := [], emitted := [], aborted := false } [97] =
      { bufsize := 49982, buffer := [97, 10], emitted := [],
        aborted := false } := by
  norm_num [chunkerStep, maxBodySize, jsonOverHead, jsonLineOverHead]

/-- Flushing the buffer `"a\n"` dispatches the single object `"a"`. -/
theorem flushSingle97 : createRequestBody (flushBody [97, 10]) = [[97]] := by
  rw [show ([97, 10] : List Nat) = joinNL [[97]] from by simp [joinNL]]
  apply createRequestBody_flush
  · intro l hl
    rw [List.mem_singleton.1 hl]
    decide
  · rw [joinNL_length]
    simp [maxBodySize]

/-- The end of the scan loop with `"b\n"` buffered dispatches the single
object `"b"` regardless of what was dispatched before. -/
theorem finalBody98 :
    createRequestBody (([98, 10] : List Nat).take maxBodySize) = [[98]] := by
  rw [show ([98, 10] : List Nat) = joinNL [[98]] from by simp [joinNL]]
  apply createRequestBody_final
  · intro l hl
    rw [List.mem_singleton.1 hl]
    decide
  · rw [joinNL_length]
    simp [maxBodySize]

theorem chunkerFinalTail98 (E : List (List (List Nat))) :
    chunkerFinal
      { bufsize := 49982
        buffer := [98, 10]
        emitted := E
        aborted := false } =
      { bufsize := 49982
        buffer := []
        emitted := E ++ [[[98]]]
        aborted := false } := by
  norm_num [chunkerFinal, finalBody98]
  decide

/-- The second scan iteration when the incoming line has 49985 bytes:
the budget goes negative, the buffered `"a\n"` is flushed, and the line
opens the next buffer. -/
theorem stepFlush49985 (L : List Nat) (hLlen : L.length = 49985) :
    chunkerStep (fun _ => true)
      { bufsize := 49982, buffer := [97, 10], emitted := [],
        aborted := false } L =
      { bufsize := -2, buffer := L ++ [10],
        emitted := [[[97]]], aborted := false } := by
  norm_num [chunkerStep, maxBodySize, jsonOverHead, jsonLineOverHead, hLlen,
    flushSingle97]
  decide

/-- Flushing a buffer holding one newline-free 49985-byte line yields
that line as the single object (its 49986 bytes fit the 50000-byte
slice). -/
theorem flushLine49985 (L : List Nat) (hLlen : L.length = 49985)
    (hL10 : 10 ∉ L) :
    createRequestBody (flushBody (L ++ [10])) = [L] := by
  rw [show L ++ [10] = joinNL [L] from by simp [joinNL]]
  apply createRequestBody_flush
  · intro l hl
    rw [List.mem_singleton.1 hl]
    exact hL10
  · rw [joinNL_length]
    simp only [List.map_cons, List.map_nil, List.sum_cons, List.sum_nil, hLlen,
      maxBodySize]
    norm_num

/-- The third scan iteration: the over-budget buffer holding the
49985-byte line is flushed as its own chunk. -/
theorem stepAfter49985 (L : List Nat) (hLlen : L.length = 49985)
    (hL10 : 10 ∉ L) :
    chunkerStep (fun _ => true)
      { bufsize := -2, buffer := L ++ [10],
        emitted := [[[97]]], aborted := false } [98] =
      { bufsize := 49982, buffer := [98, 10],
        emitted := [[[97]], [L]], aborted := false } := by
  norm_num [chunkerStep, maxBodySize, jsonOverHead, jsonLineOverHead, hLlen,
    flushLine49985 L hLlen hL10]

/-- The full run on `["a", L, "b"]` with a 49985-byte newline-free `L`:
three chunks, the middle one holding exactly `L`. -/
theorem run49985 (L : List Nat) (hLlen : L.length = 49985) (hL10 : 10 ∉ L) :
    (InvalidateByURLs (fun _ => true) [[97], L, [98]]).1 =
      [[[97]], [L], [[98]]] := by
  unfold InvalidateByURLs
  simp only [List.foldl_cons, List.foldl_nil, stepOpen97,
    stepFlush49985 L hLlen, stepAfter49985 L hLlen hL10, chunkerFinalTail98]
  rfl

/-- The request body of the single 49985-byte unescaped line serializes
to 50001 bytes. -/
theorem marshalSingle49985 (L : List Nat) (hLlen : L.length = 49985)
    (hLplain : ∀ b ∈ L, plainByte b) :
    (marshalRequestBody [L]).length = 50001 := by
  have henc : (goEncodeString L).length = L.length + 2 :=
    goEncodeString_plain_length L hLplain
  unfold marshalRequestBody
  rw [show ([L].map goEncodeString) = [goEncodeString L] from rfl,
    show commaJoin [goEncodeString L] = goEncodeString L from rfl]
  simp only [List.length_append, henc, hLlen, List.length_cons, List.length_nil]

/-- The second scan iteration when the incoming line has 50001 bytes. -/
theorem stepFlush50001 (L : List Nat) (hLlen : L.length = 50001) :
    chunkerStep (fun _ => true)
      { bufsize := 49982, buffer := [97, 10], emitted := [],
        aborted := false } L =
      { bufsize := -18, buffer := L ++ [10],
        emitted := [[[97]]], aborted := false } := by
  norm_num [chunkerStep, maxBodySize, jsonOverHead, jsonLineOverHead, hLlen,
    flushSingle97]
  decide

/-- Flushing a buffer holding one newline-free 50001-byte line: the
50000-byte slice is filled with newline-free bytes and
`createRequestBody` discards them all — the dispatched `objects` array is
empty. -/
theorem flushLine50001 (L : List Nat) (hLlen : L.length = 50001)
    (hL10 : ∀ b ∈ L, b ≠ 10) :
    createRequestBody (flushBody (L ++ [10])) = [] := by
  rw [flushBody_big _ (by simp only [List.length_append, List.length_cons,
    List.length_nil, hLlen, maxBodySize]; omega)]
  rw [List.take_append_eq_append_take]
  rw [show maxBodySize - L.length = 0 from by
    simp only [hLlen, maxBodySize]]
  simp only [List.take_zero, List.append_nil]
  apply splitLinesAux_no_newline
  intro b hb
  exact hL10 b (List.take_subset _ _ hb)

/-- The third scan iteration: the over-budget buffer holding the
50001-byte line is flushed as an empty chunk. -/
theorem stepAfter50001 (L : List Nat) (hLlen : L.length = 50001)
    (hL10 : ∀ b ∈ L, b ≠ 10) :
    chunkerStep (fun _ => true)
      { bufsize := -18, buffer := L ++ [10],
        emitted := [[[97]]], aborted := false } [98] =
      { bufsize := 49982, buffer := [98, 10],
        emitted := [[[97]], []], aborted := false } := by
  norm_num [chunkerStep, maxBodySize, jsonOverHead, jsonLineOverHead, hLlen,
    flushLine50001 L hLlen hL10]

/-- The full run on `["a", L, "b"]` with a 50001-byte newline-free `L`:
the middle dispatched body has an empty `objects` array. -/
theorem run50001 (L : List Nat) (hLlen : L.length = 50001)
    (hL10 : ∀ b ∈ L, b ≠ 10) :
    (InvalidateByURLs (fun _ => true) [[97], L, [98]]).1 =
      [[[97]], [], [[98]]] := by
  unfold InvalidateByURLs
  simp only [List.foldl_cons, List.foldl_nil, stepOpen97,
    stepFlush50001 L hLlen, stepAfter50001 L hLlen hL10, chunkerFinalTail98]
  rfl

/-! ## Claim C1 — concatenation of the chunked objects -/

/-- C1 counterexample.  A single line whose cost exactly exhausts the
fresh budget (49983 bytes) drives `bufsize` to 0 on the first iteration;
the flush then reads from an empty buffer, `buffer.Read` returns `io.EOF`,
and `chkErr` kills the process: nothing is dispatched and the line is
dropped, so the concatenation of the emitted `objects` arrays is not the
input sequence. -/
theorem c1_counterexample :
    (InvalidateByURLs (fun _ => true) [List.replicate 49983 97]).1.flatten ≠
      [List.replicate 49983 97] := by
  generalize hG : List.replicate 49983 97 = L
  have hLlen : L.length = 49983 := by rw [← hG]; exact List.length_replicate ..
  rw [fatalRun49983 L hLlen]
  simp

/-- C1 (amended): for every finite sequence of input lines in which each
line passes the `url.Parse` check and is at most 49982 bytes long
(`length + jsonLineOverHead < maxBodySize - jsonOverHead`), concatenating
the `objects` arrays of all dispatched request bodies in dispatch order
yields exactly the input line sequence — no line dropped, none
duplicated, order preserved. -/
theorem c1_chunker_concat (parseOk : List Nat → Bool) (lines : List (List Nat))
    (h : ∀ l ∈ lines, parseOk l = true ∧ l.length ≤ 49982 ∧ 10 ∉ l) :
    (InvalidateByURLs parseOk lines).1.flatten = lines :=
  (invalidateByURLs_spec parseOk lines h).1

/-- Witness for `c1_chunker_concat` at a concrete input. -/
theorem c1_witness :
    (InvalidateByURLs (fun _ => true) [[83, 47, 97], [76, 47, 98]]).1.flatten =
      [[83, 47, 97], [76, 47, 98]] :=
  c1_chunker_concat (fun _ => true) [[83, 47, 97], [76, 47, 98]] (by decide)

/-! ## Claim C2 — serialized chunk size -/

/-- C2 counterexample.  A 49985-byte line is flushed alone into a chunk
(its cost 49988 exceeds any remaining budget but its 49986 buffered bytes
fit the 50000-byte slice), and its request body serializes to
`14 + 2 + 49985 = 50001 > 50000` bytes. -/
theorem c2_counterexample :
    ∃ c ∈ (InvalidateByURLs (fun _ => true)
        [[97], List.replicate 49985 97, [98]]).1,
      maxBodySize < (marshalRequestBody c).length := by
  generalize hG : List.replicate 49985 97 = L
  have hLlen : L.length = 49985 := by rw [← hG]; exact List.length_replicate ..
  have hLplain : ∀ b ∈ L, plainByte b := by
    rw [← hG]
    intro b hb
    rw [List.eq_of_mem_replicate hb]
    decide
  have hL10 : 10 ∉ L := fun hm => by
    have := (hLplain 10 hm).1
    omega
  refine ⟨[L], by
    rw [run49985 L hLlen hL10]
    exact List.mem_cons_of_mem _ (List.mem_cons_self _ _), ?_⟩
  rw [marshalSingle49985 L hLlen hLplain]
  norm_num [maxBodySize]

/-- C2 (amended): under the C1 hypotheses alone (`url.Parse` passes and
each line is at most 49982 bytes), no input line is ever split across two
chunks — every object of every dispatched body is a whole input line; if
additionally every line consists only of bytes the JSON encoder does not
escape, then every dispatched request body serializes to at most
`maxBodySize` (50000) bytes. -/
theorem c2_chunk_size (parseOk : List Nat → Bool) (lines : List (List Nat))
    (h : ∀ l ∈ lines, parseOk l = true ∧ l.length ≤ 49982 ∧ 10 ∉ l) :
    (∀ c ∈ (InvalidateByURLs parseOk lines).1, ∀ o ∈ c, o ∈ lines) ∧
    ((∀ l ∈ lines, ∀ b ∈ l, plainByte b) →
      ∀ c ∈ (InvalidateByURLs parseOk lines).1,
        (marshalRequestBody c).length ≤ maxBodySize) := by
  obtain ⟨_, hchunks, _, _⟩ := invalidateByURLs_spec parseOk lines h
  constructor
  · intro c hc
    exact (hchunks c hc).2.2
  · intro hplain c hc
    obtain ⟨hc1, hc2, hc3⟩ := hchunks c hc
    apply marshalRequestBody_length_le
    · intro o ho b hb
      exact hplain o (hc3 o ho) b hb
    · exact hc2

/-- Witness for `c2_chunk_size` at a concrete input, exercising both
conjuncts. -/
theorem c2_witness :
    (∀ o ∈ [[83, 47, 97]], o ∈ [[83, 47, 97]]) ∧
    (marshalRequestBody [[83, 47, 97]]).length ≤ maxBodySize :=
  ⟨(c2_chunk_size (fun _ => true) [[83, 47, 97]] (by decide)).1
      [[83, 47, 97]] (by decide),
    (c2_chunk_size (fun _ => true) [[83, 47, 97]] (by decide)).2 (by decide)
      [[83, 47, 97]] (by decide)⟩

/-! ## Claim C9 — the final chunk and empty bodies -/

/-- C9 counterexample.  The claim says no empty request body is ever
produced (outside the empty-input case).  With a 50001-byte line the
buffer holds 50002 bytes at the next flush; `buffer.Read` fills the
50000-byte slice with bytes containing no newline, `createRequestBody`
discards everything, and a request body with an empty `objects` array is
dispatched. -/
theorem c9_counterexample :
    [] ∈ (InvalidateByURLs (fun _ => true)
      [[97], List.replicate 50001 97, [98]]).1 := by
  generalize hG : List.replicate 50001 97 = L
  have hLlen : L.length = 50001 := by rw [← hG]; exact List.length_replicate ..
  have hL10 : ∀ b ∈ L, b ≠ 10 := by
    rw [← hG]
    intro b hb
    rw [List.eq_of_mem_replicate hb]
    omega
  rw [run50001 L hLlen hL10]
  exact List.mem_cons_of_mem _ (List.mem_cons_self _ _)

/-- C9 (amended): on lines that pass the `url.Parse` check and are at
most 49982 bytes each, the final open chunk is dispatched exactly when it
is nonempty: a genuinely empty input dispatches zero chunks (the run dies
in `chkErr` on the empty-buffer read), a nonempty input completes without
abort and dispatches at least one body, and no dispatched body has an
empty `objects` array. -/
theorem c9_final_chunk (parseOk : List Nat → Bool) (lines : List (List Nat))
    (h : ∀ l ∈ lines, parseOk l = true ∧ l.length ≤ 49982 ∧ 10 ∉ l) :
    (lines = [] → InvalidateByURLs parseOk lines = ([], true)) ∧
    (∀ c ∈ (InvalidateByURLs parseOk lines).1, c ≠ []) ∧
    (lines ≠ [] → (InvalidateByURLs parseOk lines).2 = false ∧
      (InvalidateByURLs parseOk lines).1 ≠ []) := by
  obtain ⟨_, hchunks, hemp, hnemp⟩ := invalidateByURLs_spec parseOk lines h
  exact ⟨hemp, fun c hc => (hchunks c hc).1, hnemp⟩

/-- Witness for `c9_final_chunk` at the empty input. -/
theorem c9_witness :
    InvalidateByURLs (fun _ => true) ([] : List (List Nat)) = ([], true) :=
  (c9_final_chunk (fun _ => true) [] (by decide)).1 rfl

/-! ## Claim C10 — `createRequestBody` -/

/-- C10: `createRequestBody` returns exactly the newline-terminated lines
of its input in order, each stripped of its trailing newline, and silently
discards any bytes after the final newline — including the zero padding of
the chunker's fixed 50000-byte buffer. -/
theorem c10_createRequestBody (lines : List (List Nat)) (tail : List Nat)
    (hl : ∀ l ∈ lines, 10 ∉ l) (ht : 10 ∉ tail) :
    createRequestBody ((lines.map (fun l => l ++ [10])).flatten ++ tail) = lines :=
  createRequestBody_joinNL lines tail hl (fun _ hb h10 => ht (h10 ▸ hb))

/-- Witness for `c10_createRequestBody` at a concrete input with zero
padding after the final newline. -/
theorem c10_witness :
    createRequestBody [97, 10, 98, 99, 10, 0, 0, 0] = [[97], [98, 99]] :=
  c10_createRequestBody [[97], [98, 99]] [0, 0, 0] (by decide) (by decide)

/-! ## JSON parsing lemmas -/

theorem skipWs_append_ws (ws : List Nat) (hws : ∀ b ∈ ws, isWs b = true) :
    ∀ t, skipWs (ws ++ t) = skipWs t := by
  induction ws with
  | nil => intro t; rfl
  | cons b rest ih =>
    intro t
    simp only [List.cons_append, skipWs, hws b (List.mem_cons_self b rest), if_true]
    exact ih (fun x hx => hws x (List.mem_cons_of_mem b hx)) t

theorem skipWs_nil_of_ws (ws : List Nat) (hws : ∀ b ∈ ws, isWs b = true) :
    skipWs ws = [] := by
  have := skipWs_append_ws ws hws []
  simpa using this

theorem skipWs_cons_of_not (b : Nat) (t : List Nat) (hb : isWs b = false) :
    skipWs (b :: t) = b :: t := by
  simp [skipWs, hb]

theorem parseValue_ws (fuel : Nat) (ws t : List Nat)
    (hws : ∀ b ∈ ws, isWs b = true) :
    parseValue fuel (ws ++ t) = parseValue fuel t := by
  cases fuel with
  | zero => rfl
  | succ f =>
    simp only [parseValue, skipWs_append_ws ws hws t]

theorem parseStringBody_plain (s : List Nat) (hs : ∀ b ∈ s, plainByte b) :
    ∀ rest acc, parseStringBody (s ++ 34 :: rest) acc =
      some (acc.reverse ++ s, rest) := by
  induction s with
  | nil =>
    intro rest acc
    rw [List.nil_append, parseStringBody.eq_def]
    simp
  | cons b bs ih =>
    intro rest acc
    obtain ⟨h1, h2, h3, h4, -⟩ := hs b (List.mem_cons_self b bs)
    rw [List.cons_append, parseStringBody.eq_def]
    simp only [if_neg h3, if_neg h4, if_neg (by omega : ¬ b < 32)]
    rw [ih (fun x hx => hs x (List.mem_cons_of_mem b hx)) rest (b :: acc)]
    simp

theorem flatten_map_singleton (s : List Nat) :
    (s.map (fun b => [b])).flatten = s := by
  induction s with
  | nil => rfl
  | cons b bs ih => simp only [List.map_cons, List.flatten_cons, ih]; rfl

theorem goEncodeString_plain (s : List Nat) (hs : ∀ b ∈ s, plainByte b) :
    goEncodeString s = 34 :: s ++ [34] := by
  unfold goEncodeString
  have hmap : s.map goEscapeByte = s.map (fun b => [b]) :=
    List.map_congr_left (fun b hb => goEscapeByte_plain b (hs b hb))
  rw [hmap, flatten_map_singleton]

theorem parseNat_append_digits (ds : List Nat)
    (hds : ∀ d ∈ ds, 48 ≤ d ∧ d ≤ 57) :
    ∀ rest, headSafe rest → ∀ acc, parseNat (ds ++ rest) acc =
      (List.foldl (fun a d => a * 10 + (d - 48)) acc ds, rest) := by
  induction ds with
  | nil =>
    intro rest hrest acc
    cases rest with
    | nil => rfl
    | cons b t =>
      simp only [List.nil_append, parseNat, if_neg hrest, List.foldl_nil]
  | cons d ds ih =>
    intro rest hrest acc
    simp only [List.cons_append, parseNat,
      if_pos (hds d (List.mem_cons_self d ds)), List.foldl_cons]
    exact ih (fun x hx => hds x (List.mem_cons_of_mem d hx)) rest hrest _

theorem natToDigits_digits (n : Nat) :
    ∀ d ∈ natToDigits n, 48 ≤ d ∧ d ≤ 57 := by
  induction n using Nat.strong_induction_on with
  | _ n ih =>
    rw [natToDigits]
    split
    · intro d hd
      rw [List.mem_singleton.1 hd]
      omega
    · intro d hd
      rcases List.mem_append.1 hd with hd | hd
      · exact ih (n / 10) (Nat.div_lt_self (by omega) (by omega)) d hd
      · rw [List.mem_singleton.1 hd]
        have := Nat.mod_lt n (show 0 < 10 by omega)
        omega

theorem natToDigits_ne_nil (n : Nat) : natToDigits n ≠ [] := by
  rw [natToDigits]
  split
  · simp
  · simp

theorem natToDigits_foldl (n : Nat) :
    List.foldl (fun a d => a * 10 + (d - 48)) 0 (natToDigits n) = n := by
  induction n using Nat.strong_induction_on with
  | _ n ih =>
    rw [natToDigits]
    split
    · next h =>
      simp only [List.foldl_cons, List.foldl_nil]
      omega
    · next h =>
      rw [List.foldl_append]
      rw [ih (n / 10) (Nat.div_lt_self (by omega) (by omega))]
      simp only [List.foldl_cons, List.foldl_nil]
      omega

/-- Every serialized value starts with a non-whitespace byte that is
neither `]` nor `}` nor `,` nor `:`. -/
theorem marshalRaw_head (v : JValue) :
    ∃ b t, marshalRaw v = b :: t ∧ isWs b = false ∧ b ≠ 93 ∧ b ≠ 125 := by
  cases v with
  | jnull => exact ⟨110, _, rfl, by decide, by decide, by decide⟩
  | jbool b => cases b with
    | true => exact ⟨116, _, rfl, by decide, by decide, by decide⟩
    | false => exact ⟨102, _, rfl, by decide, by decide, by decide⟩
  | jnum n =>
    unfold marshalRaw intToDecimal
    split
    · exact ⟨45, _, rfl, by decide, by decide, by decide⟩
    · cases hd : natToDigits n.toNat with
      | nil => exact absurd hd (natToDigits_ne_nil _)
      | cons d ds =>
        have hdig := natToDigits_digits n.toNat d (by rw [hd]; exact List.mem_cons_self d ds)
        refine ⟨d, ds, rfl, ?_, by omega, by omega⟩
        simp only [isWs, Bool.or_eq_false_iff, beq_eq_false_iff_ne, ne_eq]
        omega
  | jstr s => exact ⟨34, _, rfl, by decide, by decide, by decide⟩
  | jarr es =>
    cases es with
    | nil => exact ⟨91, _, rfl, by decide, by decide, by decide⟩
    | cons v es => exact ⟨91, _, rfl, by decide, by decide, by decide⟩
  | jobj fs =>
    cases fs with
    | nil => exact ⟨123, _, rfl, by decide, by decide, by decide⟩
    | cons k v fs => exact ⟨123, _, rfl, by decide, by decide, by decide⟩

theorem jsizeV_pos (v : JValue) : 1 ≤ jsizeV v := by
  cases v <;> simp [jsizeV]

theorem intToDecimal_ne_nil (n : Int) : intToDecimal n ≠ [] := by
  unfold intToDecimal
  split
  · simp
  · exact natToDigits_ne_nil _

mutual
theorem jsizeV_le_marshal (v : JValue) : jsizeV v ≤ (marshalRaw v).length := by
  cases v with
  | jnull => decide
  | jbool b => cases b <;> decide
  | jnum n =>
    have := intToDecimal_ne_nil n
    have := List.length_pos.2 this
    simp only [jsizeV, marshalRaw]
    omega
  | jstr s => simp [jsizeV, marshalRaw, goEncodeString]
  | jarr es =>
    cases es with
    | nil => decide
    | cons v2 es2 =>
      have h := jsizeL_le_marshal (JList.cons v2 es2)
      simp only [jsizeV, jsizeL, marshalRaw, marshalElems, List.length_cons,
        List.length_append] at *
      omega
  | jobj fs =>
    cases fs with
    | nil => decide
    | cons k v2 fs2 =>
      have h := jsizeF_le_marshal (JFields.cons k v2 fs2)
      simp only [jsizeV, jsizeF, marshalRaw, marshalFields, List.length_cons,
        List.length_append] at *
      omega
theorem jsizeL_le_marshal (es : JList) : jsizeL es ≤ (marshalElems es).length := by
  cases es with
  | nil => decide
  | cons v es2 =>
    have h1 := jsizeV_le_marshal v
    have h2 := jsizeL_le_marshal es2
    simp only [jsizeL, marshalElems, List.length_cons, List.length_append]
    omega
theorem jsizeF_le_marshal (fs : JFields) : jsizeF fs ≤ (marshalFields fs).length := by
  cases fs with
  | nil => decide
  | cons k v fs2 =>
    have h1 := jsizeV_le_marshal v
    have h2 := jsizeF_le_marshal fs2
    simp only [jsizeF, marshalFields, List.length_cons, List.length_append]
    omega
end

/-! ## Decoded-map lemmas -/

theorem fappend_nil (a : JFields) : fappend a .nil = a := by
  cases a with
  | nil => rfl
  | cons k v rest => simp only [fappend, fappend_nil rest]

theorem fappend_assoc (a b c : JFields) :
    fappend (fappend a b) c = fappend a (fappend b c) := by
  cases a with
  | nil => rfl
  | cons k v rest => simp only [fappend, fappend_assoc rest b c]

theorem keysOf_fappend (a b : JFields) :
    keysOf (fappend a b) = keysOf a ++ keysOf b := by
  cases a with
  | nil => rfl
  | cons k v rest => simp only [fappend, keysOf, keysOf_fappend rest b, List.cons_append]

theorem insertKV_not_mem (k : List Nat) (v : JValue) :
    ∀ acc, k ∉ keysOf acc → insertKV k v acc = fappend acc (.cons k v .nil) := by
  intro acc
  cases acc with
  | nil => intro _; rfl
  | cons k2 v2 rest =>
    intro h
    simp only [keysOf, List.mem_cons] at h
    push_neg at h
    have hne : ¬ k2 = k := fun he => h.1 he.symm
    simp only [insertKV, fappend, if_neg hne]
    rw [insertKV_not_mem k v rest h.2]

theorem ffoldInsert_disjoint (fs : JFields) :
    ∀ acc, (keysOf fs).Nodup → (∀ k ∈ keysOf fs, k ∉ keysOf acc) →
      ffoldInsert acc fs = fappend acc fs := by
  cases fs with
  | nil => intro acc _ _; exact (fappend_nil acc).symm
  | cons k v fs2 =>
    intro acc hnd hdis
    simp only [keysOf, List.nodup_cons] at hnd
    have hk : k ∉ keysOf acc := hdis k (by simp [keysOf])
    simp only [ffoldInsert]
    rw [ffoldInsert_disjoint fs2 (insertKV k v acc) hnd.2 ?_, insertKV_not_mem k v acc hk,
      fappend_assoc]
    · rfl
    · intro k2 hk2
      rw [insertKV_not_mem k v acc hk, keysOf_fappend]
      simp only [keysOf, List.mem_append, List.mem_cons]
      push_neg
      refine ⟨fun hc => hdis k2 (by simp [keysOf, hk2]) hc, ?_, ?_⟩
      · intro he
        exact hnd.1 (he ▸ hk2)
      · intro hc
        cases hc

theorem ffoldInsert_nil (fs : JFields) (h : (keysOf fs).Nodup) :
    ffoldInsert .nil fs = fs :=
  ffoldInsert_disjoint fs .nil h (by intro k _ hc; cases hc)

/-! ## The decoder round-trip

On well-formed values, parsing the serialized bytes returns exactly the
value (with object fields accumulated through the map-insertion fold) and
consumes exactly the serialized bytes. -/

theorem numSafe_of_headSafe (v : JValue) (rest : List Nat) (h : headSafe rest) :
    numSafe v rest := by
  cases v <;> first | exact h | trivial

theorem parse_roundtrip (fuel : Nat) :
    (∀ (v : JValue) (rest : List Nat), WFv v → jsizeV v ≤ fuel → numSafe v rest →
      parseValue fuel (marshalRaw v ++ rest) = some (v, rest)) ∧
    (∀ (es : JList) (rest : List Nat), WFl es → es ≠ .nil → jsizeL es ≤ fuel →
      parseElems fuel (marshalElemsBody es ++ 93 :: rest) = some (es, rest)) ∧
    (∀ (fs : JFields) (acc : JFields) (rest : List Nat), WFf fs →
      (∀ k ∈ keysOf fs, ∀ b ∈ k, plainByte b) → fs ≠ .nil → jsizeF fs ≤ fuel →
      parseFields fuel (marshalFieldsBody fs ++ 125 :: rest) acc =
        some (ffoldInsert acc fs, rest)) := by
  induction fuel with
  | zero =>
    refine ⟨fun v rest _ hsz _ => ?_, fun es rest _ hne hsz => ?_,
      fun fs acc rest _ _ hne hsz => ?_⟩
    · have := jsizeV_pos v
      omega
    · cases es with
      | nil => cases hne rfl
      | cons v es2 => simp only [jsizeL] at hsz; omega
    · cases fs with
      | nil => cases hne rfl
      | cons k v fs2 => simp only [jsizeF] at hsz; omega
  | succ f ih =>
    obtain ⟨ihV, ihL, ihF⟩ := ih
    refine ⟨?_, ?_, ?_⟩
    · -- values
      intro v rest hwf hsz hsafe
      cases v with
      | jnull =>
        show parseValue (f + 1) (110 :: 117 :: 108 :: 108 :: rest) = some (.jnull, rest)
        rw [parseValue.eq_def]
        norm_num [skipWs, isWs]
      | jbool b =>
        cases b with
        | true =>
          show parseValue (f + 1) (116 :: 114 :: 117 :: 101 :: rest) =
            some (.jbool true, rest)
          rw [parseValue.eq_def]
          norm_num [skipWs, isWs]
        | false =>
          show parseValue (f + 1) (102 :: 97 :: 108 :: 115 :: 101 :: rest) =
            some (.jbool false, rest)
          rw [parseValue.eq_def]
          norm_num [skipWs, isWs]
      | jstr s =>
        have hplain : ∀ b ∈ s, plainByte b := hwf
        have hms : marshalRaw (.jstr s) = 34 :: s ++ [34] := goEncodeString_plain s hplain
        rw [hms]
        rw [show (34 :: s ++ [34]) ++ rest = 34 :: (s ++ 34 :: rest) from by simp]
        rw [parseValue.eq_def]
        norm_num [skipWs, isWs]
        rw [parseStringBody_plain s hplain rest []]
        simp
      | jnum n =>
        by_cases hn : n < 0
        · have hms : marshalRaw (.jnum n) = 45 :: natToDigits n.natAbs := by
            show intToDecimal n = _
            unfold intToDecimal
            rw [if_pos hn]
          cases hd : natToDigits n.natAbs with
          | nil => exact absurd hd (natToDigits_ne_nil _)
          | cons d ds =>
            have hdigs : ∀ x ∈ d :: ds, 48 ≤ x ∧ x ≤ 57 := by
              rw [← hd]; exact natToDigits_digits _
            have hdig := hdigs d (List.mem_cons_self d ds)
            rw [hms, hd]
            show parseValue (f + 1) (45 :: (d :: (ds ++ rest))) = some (.jnum n, rest)
            rw [parseValue.eq_def]
            norm_num [skipWs, isWs]
            refine ⟨hdig, ?_, ?_⟩ <;>
              rw [show (d :: (ds ++ rest)) = (d :: ds) ++ rest from rfl,
                parseNat_append_digits (d :: ds) hdigs rest hsafe 0, ← hd,
                natToDigits_foldl]
            omega
        · have hms : marshalRaw (.jnum n) = natToDigits n.toNat := by
            show intToDecimal n = _
            unfold intToDecimal
            rw [if_neg hn]
          cases hd : natToDigits n.toNat with
          | nil => exact absurd hd (natToDigits_ne_nil _)
          | cons d ds =>
            have hdigs : ∀ x ∈ d :: ds, 48 ≤ x ∧ x ≤ 57 := by
              rw [← hd]; exact natToDigits_digits _
            have hdig := hdigs d (List.mem_cons_self d ds)
            rw [hms, hd]
            show parseValue (f + 1) (d :: (ds ++ rest)) = some (.jnum n, rest)
            rw [parseValue.eq_def]
            have hws : isWs d = false := by
              simp only [isWs, Bool.or_eq_false_iff, beq_eq_false_iff_ne, ne_eq]
              omega
            simp only [skipWs, hws, if_false, Bool.false_eq_true]
            rw [if_neg (by omega : ¬ d = 110), if_neg (by omega : ¬ d = 116),
              if_neg (by omega : ¬ d = 102), if_neg (by omega : ¬ d = 34),
              if_neg (by omega : ¬ d = 45), if_pos hdig]
            rw [show (d :: (ds ++ rest)) = (d :: ds) ++ rest from rfl,
              parseNat_append_digits (d :: ds) hdigs rest hsafe 0, ← hd,
              natToDigits_foldl]
            simp only [Option.some.injEq, Prod.mk.injEq, and_true, JValue.jnum.injEq]
            omega
      | jarr es =>
        cases es with
        | nil =>
          show parseValue (f + 1) (91 :: 93 :: rest) = some (.jarr .nil, rest)
          rw [parseValue.eq_def]
          norm_num [skipWs, isWs]
        | cons v2 es2 =>
          obtain ⟨b2, t2, hb2, hws2, hne93, -⟩ := marshalRaw_head v2
          have hstream : marshalRaw (.jarr (.cons v2 es2)) ++ rest =
              91 :: (marshalElemsBody (.cons v2 es2) ++ 93 :: rest) := by
            show 91 :: (marshalRaw v2 ++ marshalElems es2) ++ [93] ++ rest = _
            simp [marshalElemsBody, List.append_assoc]
          rw [hstream]
          rw [parseValue.eq_def]
          have hinner : marshalElemsBody (.cons v2 es2) ++ 93 :: rest =
              b2 :: (t2 ++ marshalElems es2 ++ 93 :: rest) := by
            simp [marshalElemsBody, hb2, List.append_assoc]
          norm_num [skipWs, isWs]
          rw [hinner]
          rw [skipWs_cons_of_not b2 _ hws2]
          show (if b2 = 93 then
              some (JValue.jarr JList.nil, t2 ++ marshalElems es2 ++ 93 :: rest)
            else
              match parseElems f (b2 :: (t2 ++ marshalElems es2 ++ 93 :: rest)) with
              | some (es, r2) => some (JValue.jarr es, r2)
              | none => none) = some (JValue.jarr (JList.cons v2 es2), rest)
          rw [if_neg hne93, ← hinner]
          rw [ihL (.cons v2 es2) rest hwf (by intro hc; cases hc) (by
            simp only [jsizeV] at hsz; omega)]
      | jobj fs =>
        obtain ⟨hwff, hnd, hkeys⟩ := hwf
        cases fs with
        | nil =>
          show parseValue (f + 1) (123 :: 125 :: rest) = some (.jobj .nil, rest)
          rw [parseValue.eq_def]
          norm_num [skipWs, isWs]
        | cons k v2 fs2 =>
          have hstream : marshalRaw (.jobj (.cons k v2 fs2)) ++ rest =
              123 :: (marshalFieldsBody (.cons k v2 fs2) ++ 125 :: rest) := by
            show 123 :: (goEncodeString k ++ 58 :: marshalRaw v2 ++ marshalFields fs2)
              ++ [125] ++ rest = _
            simp [marshalFieldsBody, List.append_assoc]
          rw [hstream]
          rw [parseValue.eq_def]
          have hinner : marshalFieldsBody (.cons k v2 fs2) ++ 125 :: rest =
              34 :: ((k.map goEscapeByte).flatten ++ [34] ++
                (58 :: marshalRaw v2 ++ marshalFields fs2 ++ 125 :: rest)) := by
            show (goEncodeString k ++ 58 :: marshalRaw v2 ++ marshalFields fs2)
              ++ 125 :: rest = _
            simp [goEncodeString, List.append_assoc]
          norm_num [skipWs, isWs]
          rw [show (34 :: ((k.map goEscapeByte).flatten ++ 34 :: 58 :: (marshalRaw v2 ++
              (marshalFields fs2 ++ 125 :: rest)))) =
              marshalFieldsBody (.cons k v2 fs2) ++ 125 :: rest from by
            simp [marshalFieldsBody, goEncodeString, List.append_assoc]]
          rw [ihF (.cons k v2 fs2) .nil rest hwff hkeys (by intro hc; cases hc) (by
            simp only [jsizeV] at hsz; omega)]
          rw [ffoldInsert_nil _ hnd]
    · -- array elements
      intro es rest hwf hne hsz
      cases es with
      | nil => cases hne rfl
      | cons v es2 =>
        obtain ⟨hwv, hwl⟩ := hwf
        have hsafe2 : headSafe (marshalElems es2 ++ 93 :: rest) := by
          cases es2 with
          | nil => simp only [marshalElems, List.nil_append, headSafe]; omega
          | cons v3 es3 =>
            simp only [marshalElems, List.cons_append, headSafe]
            omega
        have hv := ihV v (marshalElems es2 ++ 93 :: rest) hwv
          (by simp only [jsizeL] at hsz; omega) (numSafe_of_headSafe v _ hsafe2)
        rw [parseElems.eq_def]
        simp only [marshalElemsBody]
        rw [List.append_assoc, hv]
        norm_num [skipWs, isWs]
        cases es2 with
        | nil =>
          norm_num [marshalElems, skipWs, isWs]
        | cons v3 es3 =>
          have h44 : marshalElems (.cons v3 es3) ++ 93 :: rest =
              44 :: (marshalElemsBody (.cons v3 es3) ++ 93 :: rest) := by
            simp [marshalElems, marshalElemsBody, List.append_assoc]
          rw [h44, skipWs_cons_of_not 44 _ (by decide)]
          show (match parseElems f (marshalElemsBody (.cons v3 es3) ++ 93 :: rest) with
              | some (es, r3) => some (JList.cons v es, r3)
              | none => none) = some (JList.cons v (JList.cons v3 es3), rest)
          rw [ihL (.cons v3 es3) rest hwl (by intro hc; cases hc) (by
            simp only [jsizeL] at hsz ⊢; omega)]
    · -- object fields
      intro fs acc rest hwf hkeys hne hsz
      cases fs with
      | nil => cases hne rfl
      | cons k v fs2 =>
        obtain ⟨hwv, hwff⟩ := hwf
        have hkp : ∀ b ∈ k, plainByte b := hkeys k (by simp [keysOf])
        have hsafe2 : headSafe (marshalFields fs2 ++ 125 :: rest) := by
          cases fs2 with
          | nil => simp only [marshalFields, List.nil_append, headSafe]; omega
          | cons k3 v3 fs3 =>
            simp only [marshalFields, List.cons_append, headSafe]
            omega
        have hv := ihV v (marshalFields fs2 ++ 125 :: rest) hwv
          (by simp only [jsizeF] at hsz; omega) (numSafe_of_headSafe v _ hsafe2)
        rw [parseFields.eq_def]
        simp only [marshalFieldsBody]
        rw [goEncodeString_plain k hkp]
        have hshape : (34 :: k ++ [34]) ++ 58 :: marshalRaw v ++ marshalFields fs2
            ++ 125 :: rest =
            34 :: (k ++ 34 :: (58 :: (marshalRaw v ++ (marshalFields fs2
              ++ 125 :: rest)))) := by
          simp [List.append_assoc]
        rw [hshape]
        rw [show skipWs (34 :: (k ++ 34 :: (58 :: (marshalRaw v ++ (marshalFields fs2
          ++ 125 :: rest))))) = 34 :: (k ++ 34 :: (58 :: (marshalRaw v ++
          (marshalFields fs2 ++ 125 :: rest)))) from skipWs_cons_of_not _ _ (by decide)]
        norm_num [skipWs, isWs]
        rw [parseStringBody_plain k hkp _ []]
        norm_num [skipWs, isWs]
        rw [hv]
        norm_num [skipWs, isWs]
        cases fs2 with
        | nil =>
          norm_num [marshalFields, skipWs, isWs]
          rfl
        | cons k3 v3 fs3 =>
          have h44 : marshalFields (.cons k3 v3 fs3) ++ 125 :: rest =
              44 :: (marshalFieldsBody (.cons k3 v3 fs3) ++ 125 :: rest) := by
            simp [marshalFields, marshalFieldsBody, List.append_assoc]
          rw [h44, skipWs_cons_of_not 44 _ (by decide)]
          show parseFields f (marshalFieldsBody (.cons k3 v3 fs3) ++ 125 :: rest)
              (insertKV k v acc) =
            some (ffoldInsert acc (.cons k v (.cons k3 v3 fs3)), rest)
          rw [ihF (.cons k3 v3 fs3) (insertKV k v acc) rest hwff
            (fun k2 hk2 => hkeys k2 (by simp [keysOf] at hk2 ⊢; tauto))
            (by intro hc; cases hc)
            (by simp only [jsizeF] at hsz ⊢; omega)]
          rfl

/-! ## The decode/dispatch loop -/

/-- The parse of a serialized well-formed object succeeds regardless of
what follows it on the stream. -/
theorem parse_obj_roundtrip (fs : JFields) (rest : List Nat) (hwf : WFv (.jobj fs))
    (fuel : Nat) (hsz : jsizeV (.jobj fs) ≤ fuel) :
    parseValue fuel (marshalRaw (.jobj fs) ++ rest) = some (.jobj fs, rest) :=
  (parse_roundtrip fuel).1 (.jobj fs) rest hwf hsz trivial

theorem marshalRaw_obj_length (fs : JFields) : 2 ≤ (marshalRaw (.jobj fs)).length := by
  cases fs with
  | nil => decide
  | cons k v fs2 =>
    show 2 ≤ (123 :: (goEncodeString k ++ 58 :: marshalRaw v ++ marshalFields fs2)
      ++ [125]).length
    simp [List.length_append]
    omega

theorem jsonStream_length (docs : List (List Nat × JFields)) :
    2 * docs.length ≤ (jsonStream docs).length := by
  induction docs with
  | nil => simp [jsonStream]
  | cons p ds ih =>
    simp only [jsonStream, List.map_cons, List.flatten_cons, List.length_append,
      List.length_cons] at *
    have := marshalRaw_obj_length p.2
    omega

theorem skipWs_stream_ne (ws : List Nat) (fs : JFields) (t : List Nat)
    (hws : ∀ b ∈ ws, isWs b = true) :
    skipWs (ws ++ (marshalRaw (.jobj fs) ++ t)) ≠ [] := by
  rw [skipWs_append_ws ws hws]
  obtain ⟨b, t2, hb, hwsb, -, -⟩ := marshalRaw_head (.jobj fs)
  rw [show marshalRaw (.jobj fs) ++ t = b :: (t2 ++ t) from by rw [hb]; simp]
  rw [skipWs_cons_of_not _ _ hwsb]
  simp

/-- One `Decode` call on a whitespace-prefixed serialized object document
returns its fields and the unconsumed remainder. -/
theorem decodeDoc_ws_stream (ws : List Nat) (fs : JFields) (t : List Nat)
    (hws : ∀ b ∈ ws, isWs b = true) (hwf : WFv (.jobj fs)) :
    decodeDoc (ws ++ (marshalRaw (.jobj fs) ++ t)) = some (fs, t) := by
  unfold decodeDoc
  rw [parseValue_ws _ ws _ hws]
  have hfuel : jsizeV (.jobj fs) ≤ (ws ++ (marshalRaw (.jobj fs) ++ t)).length + 1 := by
    have := jsizeV_le_marshal (.jobj fs)
    simp only [List.length_append]
    omega
  rw [parse_obj_roundtrip fs t hwf _ hfuel]

/-- The loop dispatches the documents of a well-formed stream prefix in
order, re-encoded from their decoded maps, and continues on the rest with
correspondingly less fuel. -/
theorem invalidateByBodiesLoop_docs (docs : List (List Nat × JFields)) :
    ∀ (F : Nat) (t : List Nat),
      (∀ p ∈ docs, (∀ b ∈ p.1, isWs b = true) ∧ WFv (.jobj p.2)) →
      invalidateByBodiesLoop (F + docs.length) (jsonStream docs ++ t) =
        ((docs.map (fun p => marshalValue (.jobj p.2))) ++
          (invalidateByBodiesLoop F t).1, (invalidateByBodiesLoop F t).2) := by
  induction docs with
  | nil =>
    intro F t _
    simp only [List.length_nil, Nat.add_zero, jsonStream, List.map_nil,
      List.flatten_nil, List.nil_append]
  | cons p ds ih =>
    intro F t hdocs
    obtain ⟨hws, hwf⟩ := hdocs p (List.mem_cons_self p ds)
    have hstream : jsonStream (p :: ds) ++ t =
        p.1 ++ (marshalRaw (.jobj p.2) ++ (jsonStream ds ++ t)) := by
      simp [jsonStream, List.append_assoc]
    rw [hstream]
    rw [show F + (p :: ds).length = (F + ds.length) + 1 from by
      simp [List.length_cons]; omega]
    show (if skipWs (p.1 ++ (marshalRaw (.jobj p.2) ++ (jsonStream ds ++ t))) = []
        then (([] : List (List Nat)), false)
      else
        match decodeDoc (p.1 ++ (marshalRaw (.jobj p.2) ++ (jsonStream ds ++ t))) with
        | none => ([], true)
        | some (fs, rest) =>
          let body := marshalRaw (sortDeep (.jobj fs))
          let r := invalidateByBodiesLoop (F + ds.length) rest
          (body :: r.1, r.2)) = _
    rw [if_neg (skipWs_stream_ne p.1 p.2 _ hws)]
    rw [decodeDoc_ws_stream p.1 p.2 _ hws hwf]
    show (marshalRaw (sortDeep (.jobj p.2)) ::
        (invalidateByBodiesLoop (F + ds.length) (jsonStream ds ++ t)).1,
      (invalidateByBodiesLoop (F + ds.length) (jsonStream ds ++ t)).2) = _
    rw [ih F t (fun q hq => hdocs q (List.mem_cons_of_mem p hq))]
    simp [marshalValue]

/-- The loop stops cleanly — no body, no error — on a whitespace-only
remainder (`dec.Decode` returns `io.EOF`). -/
theorem invalidateByBodiesLoop_ws (F : Nat) (tail : List Nat)
    (h : ∀ b ∈ tail, isWs b = true) :
    invalidateByBodiesLoop (F + 1) tail = ([], false) := by
  show (if skipWs tail = [] then (([] : List (List Nat)), false)
    else
      match decodeDoc tail with
      | none => ([], true)
      | some (fs, rest) =>
        let body := marshalRaw (sortDeep (.jobj fs))
        let r := invalidateByBodiesLoop F rest
        (body :: r.1, r.2)) = ([], false)
  rw [if_pos (skipWs_nil_of_ws tail h)]

/-- The parser yields an object only when the first non-whitespace byte
of the input is an opening brace. -/
theorem parseValue_obj_head (fuel : Nat) (s : List Nat) (fs : JFields)
    (rest : List Nat) (h : parseValue fuel s = some (.jobj fs, rest)) :
    ∃ t, skipWs s = 123 :: t := by
  cases fuel with
  | zero => exact absurd h (by simp [parseValue])
  | succ f =>
    cases hh : skipWs s with
    | nil =>
      simp only [parseValue, hh] at h
      exact absurd h (by simp)
    | cons b r =>
      simp only [parseValue, hh] at h
      by_cases hb : b = 123
      · exact ⟨r, by rw [hb]⟩
      · exfalso
        split_ifs at h <;> try contradiction
        all_goals repeat' split at h
        all_goals simp_all

/-- The loop stops with an error on a remainder that is neither
exhausted nor decodable as an object document. -/
theorem invalidateByBodiesLoop_bad (F : Nat) (tail : List Nat)
    (h1 : skipWs tail ≠ [])
    (h2 : ∀ fuel, ¬ ∃ fs rest, parseValue fuel tail = some (.jobj fs, rest)) :
    invalidateByBodiesLoop (F + 1) tail = ([], true) := by
  have hdec : decodeDoc tail = none := by
    unfold decodeDoc
    cases hp : parseValue (tail.length + 1) tail with
    | none => rfl
    | some pr =>
      obtain ⟨v, rest⟩ := pr
      cases v with
      | jobj fs => exact absurd ⟨fs, rest, hp⟩ (h2 (tail.length + 1))
      | jnull => rfl
      | jbool b => rfl
      | jnum n => rfl
      | jstr s => rfl
      | jarr es => rfl
  show (if skipWs tail = [] then (([] : List (List Nat)), false)
    else
      match decodeDoc tail with
      | none => ([], true)
      | some (fs, rest) =>
        let body := marshalRaw (sortDeep (.jobj fs))
        let r := invalidateByBodiesLoop F rest
        (body :: r.1, r.2)) = ([], true)
  rw [if_neg h1, hdec]

/-! ## Claim C8 — JSON-mode dispatch -/

/-- C8 counterexample: the well-formed document `{"b":null,"a":null}` is
dispatched as `{"a":null,"b":null}` — the decoded map is re-marshalled
with keys sorted, not forwarded verbatim as the same bytes. -/
theorem c8_counterexample :
    InvalidateByBodies
        [123, 34, 98, 34, 58, 110, 117, 108, 108, 44,
         34, 97, 34, 58, 110, 117, 108, 108, 125] =
      ([[123, 34, 97, 34, 58, 110, 117, 108, 108, 44,
         34, 98, 34, 58, 110, 117, 108, 108, 125]], false) ∧
    (InvalidateByBodies
        [123, 34, 98, 34, 58, 110, 117, 108, 108, 44,
         34, 97, 34, 58, 110, 117, 108, 108, 125]).1 ≠
      [[123, 34, 98, 34, 58, 110, 117, 108, 108, 44,
        34, 97, 34, 58, 110, 117, 108, 108, 125]] := by
  constructor
  · decide
  · decide

/-- C8 (amended): in JSON mode, on the exactly-modelled fragment — object
documents with distinct plain-ASCII keys and values built from `null`,
booleans, integers in `float64`'s exact range, plain-ASCII strings,
arrays and nested such objects — each document on the stream is
dispatched as its own request body: the re-marshalling of its decoded
`map[string]interface{}` (keys sorted bytewise, insignificant whitespace
gone), not the original bytes, with no re-packing across documents.  If
after the documents only whitespace remains, the decode failure at end of
stream is clean termination with no error; if instead the remainder's
first non-whitespace byte begins neither an object nor a `null`, the
mid-stream decode failure dispatches no further document and returns an
error. -/
theorem c8_json_mode (docs : List (List Nat × JFields)) (tail : List Nat)
    (hdocs : ∀ p ∈ docs, (∀ b ∈ p.1, isWs b = true) ∧ WFv (.jobj p.2) ∧
      floatSafeF p.2) :
    ((∀ b ∈ tail, isWs b = true) →
      InvalidateByBodies (jsonStream docs ++ tail) =
        (docs.map (fun p => marshalValue (.jobj p.2)), false)) ∧
    ((skipWs tail ≠ [] ∧
        ∀ c r, skipWs tail = c :: r → c ≠ 123 ∧ c ≠ 110) →
      InvalidateByBodies (jsonStream docs ++ tail) =
        (docs.map (fun p => marshalValue (.jobj p.2)), true)) := by
  have hlen := jsonStream_length docs
  have hsplit : (jsonStream docs ++ tail).length + 1 =
      (((jsonStream docs ++ tail).length - docs.length) + 1) + docs.length := by
    simp only [List.length_append]
    omega
  have hdocs2 : ∀ p ∈ docs, (∀ b ∈ p.1, isWs b = true) ∧ WFv (.jobj p.2) :=
    fun p hp => ⟨(hdocs p hp).1, (hdocs p hp).2.1⟩
  constructor
  · intro hws
    show invalidateByBodiesLoop ((jsonStream docs ++ tail).length + 1)
        (jsonStream docs ++ tail) = _
    rw [hsplit, invalidateByBodiesLoop_docs docs _ tail hdocs2,
      invalidateByBodiesLoop_ws _ tail hws]
    simp
  · rintro ⟨h1, hhead⟩
    have h2 : ∀ fuel, ¬ ∃ fs rest, parseValue fuel tail = some (.jobj fs, rest) := by
      rintro fuel ⟨fs2, rest2, hp⟩
      obtain ⟨t, ht⟩ := parseValue_obj_head fuel tail fs2 rest2 hp
      exact (hhead 123 t ht).1 rfl
    show invalidateByBodiesLoop ((jsonStream docs ++ tail).length + 1)
        (jsonStream docs ++ tail) = _
    rw [hsplit, invalidateByBodiesLoop_docs docs _ tail hdocs2,
      invalidateByBodiesLoop_bad _ tail h1 h2]
    simp

/-- Witness for `c8_json_mode`: one empty-object document followed by
end of stream dispatches exactly that document and ends cleanly. -/
theorem c8_witness :
    InvalidateByBodies [123, 125] = ([[123, 125]], false) := by
  have h := (c8_json_mode [([], JFields.nil)] []
    (by intro p hp; simp only [List.mem_singleton] at hp; subst hp
        exact ⟨by simp, ⟨trivial, by simp [keysOf], by simp [keysOf]⟩,
          trivial⟩)).1
    (by simp)
  simpa [jsonStream, marshalValue, sortDeep] using h

end FastPurge
